import Mathlib

/-!
# ibex: iOS backup decryption

A shallow embedding of the key-ladder and keybag code of the repository
(`internal/decrypt/decrypt.go`, `internal/manifest/manifest.go`,
`internal/backup/backup.go`, `internal/types/types.go`) and theorems about it.

Conventions.
* A Go `byte` is `Fin 256`; a `[]byte` is a `List Byte`.  Where the source tests a
  slice against `nil` the field is an `Option (List Byte)`; everywhere else a nil
  slice and an empty slice behave alike (`len`, `append`, `copy`) and both are `[]`.
* `uint32`/`uint64` values are `Nat`, reduced `% 2 ^ w` where the source can wrap.
* Go's `crypto/aes` and `x/crypto/pbkdf2` are not part of the repository; they are
  parameters (`AES`, `PBKDF2`) of the functions that call them.
-/

namespace Ibex

/-! ## Bytes and `encoding/binary` -/

/-- A Go `byte`. -/
abbrev Byte := Fin 256

/-- The conversion `byte(n)`: the low eight bits. -/
def toByte (n : Nat) : Byte := ⟨n % 256, Nat.mod_lt _ (by decide)⟩

/-- Go's builtin `copy(dst, src)`: overwrites the first `min(len dst, len src)`
bytes of `dst`; the result is the new content of `dst`. -/
def copy (dst src : List Byte) : List Byte :=
  src.take dst.length ++ dst.drop src.length

namespace BigEndian

/-- `binary.BigEndian.Uint64(b)`: the first eight bytes, most significant first
(the caller guarantees `len(b) ≥ 8`). -/
def Uint64 (b : List Byte) : Nat :=
  (b.take 8).foldl (fun acc x => acc * 256 + x.val) 0

/-- `binary.BigEndian.PutUint64(out, v)` on an 8-byte `out`. -/
def PutUint64 (v : Nat) : List Byte :=
  [toByte (v / 2 ^ 56), toByte (v / 2 ^ 48), toByte (v / 2 ^ 40), toByte (v / 2 ^ 32),
   toByte (v / 2 ^ 24), toByte (v / 2 ^ 16), toByte (v / 2 ^ 8), toByte v]

/-- `binary.BigEndian.Uint32(b)` on the first four bytes of `b`; total version, the
bounds check (`len(b) ≥ 4`, else a runtime panic) is made by the callers below. -/
def Uint32 (b : List Byte) : Nat :=
  (b.take 4).foldl (fun acc x => acc * 256 + x.val) 0

end BigEndian

/-! ## Errors -/

/-- The error values the embedded functions return (one constructor per
`fmt.Errorf` site; `%w`/`%v` wrapping keeps the cause). -/
inductive Error where
  /-- `aes.KeySizeError(len(key))` from `aes.NewCipher`. -/
  | keySizeError (n : Nat)
  /-- "invalid wrapped key length" -/
  | invalidWrappedKeyLength
  /-- "unwrap check failed (A != 0xa6...)" -/
  | unwrapCheckFailed
  /-- "failed to unwrap WPKY for class %d: %w" -/
  | unwrapWPKYFailed (clas : Nat) (cause : Error)
  /-- "missing DPSL in keybag" -/
  | missingDPSL
  /-- "missing DPIC in keybag" -/
  | missingDPIC
  /-- "missing SALT in keybag" -/
  | missingSALT
  /-- "missing ITER in keybag" -/
  | missingITER
  /-- "incomplete passcode attributes in keybag" -/
  | incompletePasscodeAttributes
  /-- "failed to read T/L header: %w" (the cause is `io.ErrUnexpectedEOF`) -/
  | readHeaderFailed
  /-- "failed to read payload for tag=%q: %w" -/
  | readPayloadFailed (tag : List Byte)
  /-- "unexpected keybag type: %d" -/
  | unexpectedKeybagType (t : Nat)
  /-- "failed to parse keybag: %v" -/
  | parseKeybagFailed (cause : Error)
  /-- "derivePasscodeKey failed: %v" -/
  | derivePasscodeKeyFailed (cause : Error)
  /-- "unlockKeybag failed: %v" -/
  | unlockKeybagFailed (cause : Error)
  /-- An error of the database or the file system (opaque to the model). -/
  | external (code : Nat)
  /-- "unknown class id %d" -/
  | unknownClassID (classID : Nat)
  /-- "class id %d has no unwrapped KEY" -/
  | classHasNoKey (classID : Nat)
  /-- "unexpected wrapped key length (got %d, want 0x28)" -/
  | unexpectedWrappedKeyLength (got : Nat)
  /-- "ManifestKey is too short to contain a valid key" -/
  | manifestKeyTooShort
  /-- "failed to unwrap Manifest DB key: %v" -/
  | unwrapManifestKeyFailed (cause : Error)
  /-- "ciphertext too short" -/
  | ciphertextTooShort
  /-- "failed to read backup file %s: %w" -/
  | readBackupFileFailed (cause : Error)
  /-- "class key for protection class %d not available" -/
  | classKeyNotAvailable (protClass : Int)
  /-- "file has invalid wrapped encryption key length (expected 0x28, got %d)" -/
  | invalidFileKeyLength (got : Nat)
  /-- "failed to unwrap file encryption key: %w" -/
  | unwrapFileKeyFailed (cause : Error)
  /-- "AES decryption error: %w" -/
  | aesDecryptionError (cause : Error)
  /-- "plist decode failed: %w" -/
  | plistDecodeFailed (cause : Error)
  /-- "root UID out of range" -/
  | rootUIDOutOfRange
  /-- "root object is not a dictionary" -/
  | rootNotDictionary
  /-- "failed to decode MBFile: %w" -/
  | decodeMBFileFailed (cause : Error)
  /-- "failed decoding encryption key object: %w" -/
  | decodeEncryptionKeyFailed (cause : Error)
  /-- A conversion error of `mapstructure`. -/
  | weakDecodeFailed (field : String)
  deriving DecidableEq, Repr

deriving instance DecidableEq for Except

/-- The runtime panics that the file and cipher code can raise: an index or slice
bound (`index out of range`, `slice bounds out of range`) and crypto/cipher's
"input not full blocks". -/
inductive GoPanic where
  | indexOutOfRange
  | inputNotFullBlocks
  deriving DecidableEq, Repr

/-- What a call of the file and cipher code does: return a value, return an error,
or abort with a panic. -/
inductive GoResult (α : Type) where
  | ok (a : α)
  | error (e : Error)
  | aborted (p : GoPanic)
  deriving DecidableEq, Repr

/-! ## AES (parameter) -/

/-- The `cipher.Block` of one key: `Encrypt`/`Decrypt` map one 16-byte block to one
16-byte block (`dst` is a 16-byte buffer that the call fills). -/
structure Block where
  Encrypt : List Byte → List Byte
  Decrypt : List Byte → List Byte
  Encrypt_length : ∀ src, (Encrypt src).length = 16
  Decrypt_length : ∀ src, (Decrypt src).length = 16

/-- The block cipher behind `crypto/aes`: the key schedule, from key to `Block`. -/
structure AES where
  cipher : List Byte → Block

/-- `aes.NewCipher(key)`: a `KeySizeError` unless the key has 16, 24 or 32 bytes. -/
def AES.NewCipher (aes : AES) (key : List Byte) : Except Error Block :=
  if key.length = 16 ∨ key.length = 24 ∨ key.length = 32 then .ok (aes.cipher key)
  else .error (.keySizeError key.length)

/-! ## `decrypt.go`: RFC 3394 unwrap -/

/-- `Xor64BE(A, t)`: `nil` unless `len(A) = 8`; else the big-endian value of `A`
XORed with `t`, written back big-endian into a fresh 8-byte slice. -/
def Xor64BE (A : List Byte) (t : Nat) : List Byte :=
  if A.length ≠ 8 then []
  else BigEndian.PutUint64 (BigEndian.Uint64 A ^^^ t)

/-- The integrity constant `0xa6a6a6a6a6a6a6a6`. -/
def integrityIV : List Byte := List.replicate 8 0xa6

/-- The first loop of `AesUnwrap`: `R := make([][]byte, n+1)` and, for `i = 1..n`,
`R[i] = make([]byte, 8); copy(R[i], wrapped[idx:idx+8]); idx += 8` from `idx = 8`.
`R[0]` stays nil. -/
def loadR (wrapped : List Byte) (n : Nat) : List (List Byte) :=
  ((List.range' 1 n).foldl
    (fun (s : List (List Byte) × Nat) i =>
      (s.1.set i (copy (List.replicate 8 0) ((wrapped.drop s.2).take 8)), s.2 + 8))
    (List.replicate (n + 1) [], 8)).1

/-- One pass of the inner loop body of `AesUnwrap` (lines 114-121) on the registers
`(A, R)`: `t := uint64(n)*uint64(j) + uint64(i)`, `temp := Xor64BE(A, t)`,
`buf := append(temp, R[i]...)`, `block.Decrypt(decrypted, buf)`,
`copy(A, decrypted[:8])`, `copy(R[i], decrypted[8:16])`. -/
def unwrapStep (block : Block) (n j : Nat) (s : List Byte × List (List Byte)) (i : Nat) :
    List Byte × List (List Byte) :=
  let t := (n * j + i) % 2 ^ 64
  let temp := Xor64BE s.1 t
  let buf := temp ++ s.2.getD i []
  let decrypted := block.Decrypt buf
  (copy s.1 (decrypted.take 8), s.2.set i (copy (s.2.getD i []) ((decrypted.drop 8).take 8)))

/-- The six rounds of `AesUnwrap`: `for j := 5; j >= 0; j--` around
`for i := n; i >= 1; i--`. -/
def unwrapRounds (block : Block) (n : Nat) (s : List Byte × List (List Byte)) :
    List Byte × List (List Byte) :=
  [5, 4, 3, 2, 1, 0].foldl
    (fun s j => (List.range' 1 n).reverse.foldl (unwrapStep block n j) s) s

/-- The last loop of `AesUnwrap`: `result = append(result, R[i]...)` for `i = 1..n`. -/
def flattenR (R : List (List Byte)) (n : Nat) : List Byte :=
  (List.range' 1 n).foldl (fun result i => result ++ R.getD i []) []

/-- The registers `(A, R)` of `AesUnwrap` after the six rounds, for a `wrapped` that
passed the length check. -/
def unwrapRegisters (block : Block) (wrapped : List Byte) : List Byte × List (List Byte) :=
  let n := wrapped.length / 8 - 1
  let A := copy (List.replicate 8 0) (wrapped.take 8)
  unwrapRounds block n (A, loadR wrapped n)

/-- `AesUnwrap(kek, wrapped)`. -/
def AesUnwrap (aes : AES) (kek wrapped : List Byte) : Except Error (List Byte) :=
  if wrapped.length < 16 ∨ wrapped.length % 8 ≠ 0 then
    .error .invalidWrappedKeyLength
  else
    match aes.NewCipher kek with
    | .error e => .error e
    | .ok block =>
      let s := unwrapRegisters block wrapped
      if s.1 ≠ integrityIV then .error .unwrapCheckFailed
      else .ok (flattenR s.2 (wrapped.length / 8 - 1))

/-! ## `types.go` -/

/-- `types.ClassKey`.  `KEY` is tested against nil by the source, so it is an
`Option`; a class key that the parser has just allocated is `ClassKey.new uuid`. -/
structure ClassKey where
  CLAS : Nat
  WRAP : Nat
  WPKY : List Byte
  KTYP : Nat
  UUID : List Byte
  KEY : Option (List Byte)
  deriving DecidableEq, Repr

/-- The composite literal `&types.ClassKey{UUID: val}`: every other field zero. -/
def ClassKey.new (uuid : List Byte) : ClassKey :=
  { CLAS := 0, WRAP := 0, WPKY := [], KTYP := 0, UUID := uuid, KEY := none }

/-- A Go map as an association list with unique keys, read with `mapGet` and
written with `mapSet`. -/
def mapGet {κ α : Type} [DecidableEq κ] : List (κ × α) → κ → Option α
  | [], _ => none
  | (k', v) :: rest, k => if k' = k then some v else mapGet rest k

/-- The assignment `m[k] = v`: replaces the entry of `k` or adds one. -/
def mapSet {κ α : Type} [DecidableEq κ] : List (κ × α) → κ → α → List (κ × α)
  | [], k, v => [(k, v)]
  | (k', v') :: rest, k, v =>
    if k' = k then (k, v) :: rest else (k', v') :: mapSet rest k v

/-- `types.Keybag` (`Typ` is the field `Type`).  `UUID` is tested against nil by
the parser, so it is an `Option`.  `Attributes` only ever holds `[]byte` values. -/
structure Keybag where
  Typ : Nat
  UUID : Option (List Byte)
  Wrap : Nat
  ClassKeys : List (Nat × ClassKey)
  Attributes : List (List Byte × List Byte)
  deriving DecidableEq, Repr

/-- `types.ManifestPlist`. -/
structure ManifestPlist where
  BackupKeyBag : List Byte
  ManifestKey : List Byte
  deriving DecidableEq, Repr

/-! ## `manifest.go`: `ParseKeybag` -/

/-- What a call does: return a value, return an error, or (for the functions that
decode a big-endian integer from a slice) abort with Go's runtime panic
"index out of range".  `outOfFuel` is the bounded loop of the model running out of
steps; `ParseKeybag_ne_outOfFuel` shows it never happens. -/
inductive Outcome (α : Type) where
  | ok (a : α)
  | error (e : Error)
  | indexOutOfRange
  | outOfFuel
  deriving DecidableEq, Repr

/-- The four ASCII bytes of a tag. -/
def tagOf (s : String) : List Byte := s.toList.map (fun c => toByte c.toNat)

def tagTYPE : List Byte := tagOf "TYPE"
def tagUUID : List Byte := tagOf "UUID"
def tagWRAP : List Byte := tagOf "WRAP"
def tagCLAS : List Byte := tagOf "CLAS"
def tagWPKY : List Byte := tagOf "WPKY"
def tagKTYP : List Byte := tagOf "KTYP"
def tagPBKY : List Byte := tagOf "PBKY"
def tagDPSL : List Byte := tagOf "DPSL"
def tagDPIC : List Byte := tagOf "DPIC"
def tagSALT : List Byte := tagOf "SALT"
def tagITER : List Byte := tagOf "ITER"

/-- The local state of `ParseKeybag`: `kb` and `currentCK` (nil or a class key). -/
structure ParseState where
  kb : Keybag
  currentCK : Option ClassKey
  deriving DecidableEq, Repr

/-- The statement `kb.ClassKeys[currentCK.CLAS] = currentCK` under its guard
`currentCK != nil && currentCK.CLAS != 0` (lines 55-57 and 87-89). -/
def commitCK (kb : Keybag) (currentCK : Option ClassKey) : Keybag :=
  match currentCK with
  | some ck => if ck.CLAS ≠ 0 then { kb with ClassKeys := mapSet kb.ClassKeys ck.CLAS ck } else kb
  | none => kb

/-- The `switch tag` of `ParseKeybag` (lines 43-83) on one record.
`binary.BigEndian.Uint32(val)` panics when `len(val) < 4`. -/
def applyRecord (st : ParseState) (tag val : List Byte) : Outcome ParseState :=
  if tag = tagTYPE then
    if val.length < 4 then .indexOutOfRange
    else if BigEndian.Uint32 val > 3 then .error (.unexpectedKeybagType (BigEndian.Uint32 val))
    else .ok { st with kb := { st.kb with Typ := BigEndian.Uint32 val } }
  else if tag = tagUUID then
    match st.kb.UUID with
    | none => .ok { st with kb := { st.kb with UUID := some val } }
    | some _ => .ok { kb := commitCK st.kb st.currentCK, currentCK := some (ClassKey.new val) }
  else if tag = tagWRAP then
    match st.currentCK with
    | none =>
      if val.length < 4 then .indexOutOfRange
      else .ok { st with kb := { st.kb with Wrap := BigEndian.Uint32 val } }
    | some ck =>
      if val.length < 4 then .indexOutOfRange
      else .ok { st with currentCK := some { ck with WRAP := BigEndian.Uint32 val } }
  else if tag = tagCLAS then
    match st.currentCK with
    | none => .ok st
    | some ck =>
      if val.length < 4 then .indexOutOfRange
      else .ok { st with currentCK := some { ck with CLAS := BigEndian.Uint32 val } }
  else if tag = tagWPKY then
    match st.currentCK with
    | none => .ok st
    | some ck => .ok { st with currentCK := some { ck with WPKY := val } }
  else if tag = tagKTYP then
    match st.currentCK with
    | none => .ok st
    | some ck =>
      if val.length < 4 then .indexOutOfRange
      else .ok { st with currentCK := some { ck with KTYP := BigEndian.Uint32 val } }
  else if tag = tagPBKY then
    .ok st
  else
    .ok { st with kb := { st.kb with Attributes := mapSet st.kb.Attributes tag val } }

/-- The `for` loop of `ParseKeybag` on the unread bytes `r` of the reader.
`io.ReadFull(r, header)` gives `io.EOF` when no byte is left (the loop breaks) and
`io.ErrUnexpectedEOF` when 1..7 are; `io.ReadFull(r, val)` fails when fewer than
`length` bytes are left (and succeeds for `length = 0` even at the end).
Every pass reads at least 8 bytes, so `len(r) + 1` passes always suffice. -/
def parseLoop : Nat → ParseState → List Byte → Outcome ParseState
  | 0, _, _ => .outOfFuel
  | fuel + 1, st, r =>
    if r.length = 0 then .ok st
    else if r.length < 8 then .error .readHeaderFailed
    else
      let header := r.take 8
      let tag := header.take 4
      let length := BigEndian.Uint32 (header.drop 4)
      let rest := r.drop 8
      if rest.length < length then .error (.readPayloadFailed tag)
      else
        let val := rest.take length
        match applyRecord st tag val with
        | .ok st' => parseLoop fuel st' (rest.drop length)
        | .error e => .error e
        | .indexOutOfRange => .indexOutOfRange
        | .outOfFuel => .outOfFuel

/-- The keybag `ParseKeybag` starts from: empty maps, zero fields, nil UUID. -/
def Keybag.new : Keybag :=
  { Typ := 0, UUID := none, Wrap := 0, ClassKeys := [], Attributes := [] }

/-- `ParseKeybag(blob)`. -/
def ParseKeybag (blob : List Byte) : Outcome Keybag :=
  match parseLoop (blob.length + 1) { kb := Keybag.new, currentCK := none } blob with
  | .ok st => .ok (commitCK st.kb st.currentCK)
  | .error e => .error e
  | .indexOutOfRange => .indexOutOfRange
  | .outOfFuel => .outOfFuel

/-! ## `decrypt.go`: the key ladder -/

/-- The hash argument of `pbkdf2.Key`. -/
inductive Hash where
  | sha1
  | sha256
  deriving DecidableEq, Repr

/-- `golang.org/x/crypto/pbkdf2`: `Key(password, salt, iter, keyLen, h)` returns
`keyLen` bytes. -/
structure PBKDF2 where
  Key : List Byte → List Byte → Nat → Nat → Hash → List Byte
  Key_length : ∀ password salt iter keyLen h, (Key password salt iter keyLen h).length = keyLen

/-- `DerivePasscodeKey(kb, passcode)`.  The type assertion `.([]byte)` succeeds
exactly when the attribute is present. -/
def DerivePasscodeKey (kdf : PBKDF2) (kb : Keybag) (passcode : List Byte) :
    Except Error (List Byte) :=
  match mapGet kb.Attributes tagDPSL with
  | none => .error .missingDPSL
  | some dpslRaw =>
  match mapGet kb.Attributes tagDPIC with
  | none => .error .missingDPIC
  | some dpicRaw =>
  match mapGet kb.Attributes tagSALT with
  | none => .error .missingSALT
  | some saltRaw =>
  match mapGet kb.Attributes tagITER with
  | none => .error .missingITER
  | some iterRaw =>
    if dpslRaw.length = 0 ∨ dpicRaw.length < 4 ∨ saltRaw.length = 0 ∨ iterRaw.length < 4 then
      .error .incompletePasscodeAttributes
    else
      let dpicInt := BigEndian.Uint32 dpicRaw
      let iterInt := BigEndian.Uint32 iterRaw
      let passcode1 := kdf.Key passcode dpslRaw dpicInt 32 .sha256
      let passcodeKey := kdf.Key passcode1 saltRaw iterInt 32 .sha1
      .ok passcodeKey

/-- The loop of `UnlockKeybagWithPasscode` over the entries of `kb.ClassKeys`, in
the order of the list (Go's order is unspecified; the entries are independent).
Returns the entries as the loop leaves them and the error it returned, if any. -/
def unlockClassKeys (aes : AES) (passcodeKey : List Byte) :
    List (Nat × ClassKey) → List (Nat × ClassKey) × Option Error
  | [] => ([], none)
  | (k, ckey) :: rest =>
    if ckey.WRAP &&& 2 ≠ 0 then
      match AesUnwrap aes passcodeKey ckey.WPKY with
      | .error err => ((k, ckey) :: rest, some (.unwrapWPKYFailed ckey.CLAS err))
      | .ok unwrapped =>
        let r := unlockClassKeys aes passcodeKey rest
        ((k, { ckey with KEY := some unwrapped }) :: r.1, r.2)
    else
      let r := unlockClassKeys aes passcodeKey rest
      ((k, ckey) :: r.1, r.2)

/-- `UnlockKeybagWithPasscode(kb, passcodeKey)`: the keybag after the call (class
keys are mutated through their pointers) and the returned error. -/
def UnlockKeybagWithPasscode (aes : AES) (kb : Keybag) (passcodeKey : List Byte) :
    Keybag × Option Error :=
  let r := unlockClassKeys aes passcodeKey kb.ClassKeys
  ({ kb with ClassKeys := r.1 }, r.2)

/-- `ParseAndUnlockKeybag(mp, passcode)`. -/
def ParseAndUnlockKeybag (aes : AES) (kdf : PBKDF2) (mp : ManifestPlist)
    (passcode : List Byte) : Outcome Keybag :=
  match ParseKeybag mp.BackupKeyBag with
  | .error err => .error (.parseKeybagFailed err)
  | .indexOutOfRange => .indexOutOfRange
  | .outOfFuel => .outOfFuel
  | .ok kb =>
    match DerivePasscodeKey kdf kb passcode with
    | .error err => .error (.derivePasscodeKeyFailed err)
    | .ok passcodeKey =>
      match UnlockKeybagWithPasscode aes kb passcodeKey with
      | (_, some err) => .error (.unlockKeybagFailed err)
      | (kb', none) => .ok kb'

/-! ## `backup.go`: `ProcessFiles`

The database, the plist decoder and the file system are outside the model: a row
carries the result of every call the loop body makes on it. -/

/-- `strings.HasPrefix` on character lists. -/
def startsWith : List Char → List Char → Bool
  | _, [] => true
  | [], _ :: _ => false
  | c :: s, d :: p => c = d && startsWith s p

/-- `strings.Contains` on character lists. -/
def containsChars : List Char → List Char → Bool
  | [], substr => substr.isEmpty
  | c :: s, substr => startsWith (c :: s) substr || containsChars s substr

/-- `strings.Contains(s, substr)`. -/
def stringsContains (s substr : String) : Bool := containsChars s.toList substr.toList

/-- What the loop uses of the values `manifest.ParseFileBlob` returns. -/
structure FileBlobInfo where
  wrappedKey : List Byte
  fileSize : Int
  deriving DecidableEq, Repr

/-- One row of `Files` with the results of the calls made on it: `rows.Scan`,
`manifest.ParseFileBlob`, `os.WriteFile`, `os.Chtimes` (the error each returns, `none`
for nil), and `decrypt.GetUnencryptedFileFromBackup`, `decrypt.DecryptFileFromBackup`
(the file data, an error, or the panic of the call: both panic on a `fileID` of fewer
than 2 bytes and on a negative size). -/
structure FileRow where
  scan : Option Error
  relativePath : String
  parseFileBlob : Except Error FileBlobInfo
  getUnencrypted : GoResult (List Byte)
  decryptFile : GoResult (List Byte)
  writeFileErr : Option Error
  chtimes : Option Error
  deriving DecidableEq, Repr

/-- How one pass of the row loop ends: `continue`/fall through to the next row,
`break`, `return err`, `log.Fatal` (the process exits), or a panic that nothing
recovers. -/
inductive Flow where
  | next (found : Bool)
  | stop (found : Bool)
  | ret (err : Option Error)
  | fatal
  | panicked (p : GoPanic)
  deriving DecidableEq, Repr

/-- What `ProcessFiles` does: returns `err` (`none` is nil), exits the process, or
aborts with a panic. -/
inductive ProcessResult where
  | returned (err : Option Error)
  | exited
  | panicked (p : GoPanic)
  deriving DecidableEq, Repr

/-- The body of `for rows.Next()` in `ProcessFiles` (lines 188-279). -/
def processRow (targetFile : String) (relative : Bool) (found : Bool) (row : FileRow) : Flow :=
  match row.scan with
  | some err => .ret (some err)
  | none =>
    if targetFile ≠ "" ∧ ¬ stringsContains row.relativePath targetFile then .next found
    else
      match row.parseFileBlob with
      | .error _ => .next found
      | .ok info =>
        if info.wrappedKey.length = 0 then
          if info.fileSize = 0 then .next found
          else
            match row.getUnencrypted with
            | .aborted p => .panicked p
            | .error _ => .next found
            | .ok _ =>
              match row.writeFileErr with
              | some _ => .next found
              | none => .next found
        else
          match row.decryptFile with
          | .aborted p => .panicked p
          | .error _ => .next found
          | .ok _ =>
            if relative then
              match row.writeFileErr with
              | some _ => .next found
              | none =>
                match row.chtimes with
                | some _ => .fatal
                | none => if targetFile ≠ "" then .stop true else .next true
            else
              match row.writeFileErr with
              | some _ => .next found
              | none => if targetFile ≠ "" then .stop true else .next true

/-- The statements after the row loop (lines 281-293).  `err` is the function's
variable `err`: it is assigned `rows.Err()`, returned when non-nil, and it is the
same variable that `return err` returns in the `targetFile != "" && !found` branch. -/
def afterRows (targetFile : String) (found : Bool) (rowsErr : Option Error) : ProcessResult :=
  let err := rowsErr
  if err ≠ none then .returned err
  else if targetFile ≠ "" ∧ found = false then .returned err
  else .returned none

/-- The row loop of `ProcessFiles` followed by `afterRows`. -/
def processRows (targetFile : String) (relative : Bool) (rowsErr : Option Error) :
    List FileRow → Bool → ProcessResult
  | [], found => afterRows targetFile found rowsErr
  | row :: rest, found =>
    match processRow targetFile relative found row with
    | .next found' => processRows targetFile relative rowsErr rest found'
    | .stop found' => afterRows targetFile found' rowsErr
    | .ret err => .returned err
    | .fatal => .exited
    | .panicked p => .panicked p

/-- `ProcessFiles`: `openErr` and `queryErr` are the errors of
`manifest.OpenManifestDB` and `db.Query`, `rows` the rows in query order, `rowsErr`
what `rows.Err()` returns after the loop. -/
def ProcessFiles (openErr queryErr : Option Error) (rows : List FileRow)
    (rowsErr : Option Error) (targetFile : String) (relative : Bool) : ProcessResult :=
  match openErr with
  | some err => .returned (some err)
  | none =>
    match queryErr with
    | some err => .returned (some err)
    | none => processRows targetFile relative rowsErr rows false

/-! ## `decrypt.go`: unwrapping keys, CBC, file contents -/

namespace LittleEndian

/-- `binary.LittleEndian.Uint32(b)` on the first four bytes of `b`, least significant
first; total version, the bounds check is made by the caller. -/
def Uint32 (b : List Byte) : Nat :=
  (b.take 4).foldr (fun x acc => acc * 256 + x.val) 0

end LittleEndian

/-- `UnwrapKeyForClass(kb, classID, wrappedKey)`: the keybag after the call (the
function has no assignment through `kb`) and what it returns. -/
def UnwrapKeyForClass (aes : AES) (kb : Keybag) (classID : Nat) (wrappedKey : List Byte) :
    Keybag × Except Error (List Byte) :=
  match mapGet kb.ClassKeys classID with
  | none => (kb, .error (.unknownClassID classID))
  | some ck =>
    match ck.KEY with
    | none => (kb, .error (.classHasNoKey classID))
    | some key =>
      if wrappedKey.length ≠ 0x28 then
        (kb, .error (.unexpectedWrappedKeyLength wrappedKey.length))
      else (kb, AesUnwrap aes key wrappedKey)

/-- `UnwrapManifestDBKey(kb, mp)`.  The slice expressions `mp.ManifestKey[:4]` and
`mp.ManifestKey[4:]` panic when the slice has fewer than 4 bytes. -/
def UnwrapManifestDBKey (aes : AES) (kb : Keybag) (mp : ManifestPlist) : Outcome (List Byte) :=
  if mp.ManifestKey.length < 0x28 then .error .manifestKeyTooShort
  else if mp.ManifestKey.length < 4 then .indexOutOfRange
  else
    let manifestClass := LittleEndian.Uint32 (mp.ManifestKey.take 4)
    let wrapped := mp.ManifestKey.drop 4
    match (UnwrapKeyForClass aes kb manifestClass wrapped).2 with
    | .error err => .error (.unwrapManifestKeyFailed err)
    | .ok dbKey => .ok dbKey

/-- Bytewise XOR of two blocks (`subtle.XORBytes`). -/
def xorBytes (a b : List Byte) : List Byte :=
  List.zipWith (fun x y => toByte (x.val ^^^ y.val)) a b

/-- `cipher.NewCBCDecrypter(block, iv).CryptBlocks(dst, src)` on `n` blocks of `src`:
each plaintext block is the decryption of its ciphertext block XORed with the
previous ciphertext block, the first one with `iv`. -/
def cbcDecryptBlocks (block : Block) : Nat → List Byte → List Byte → List Byte
  | 0, _, _ => []
  | n + 1, iv, src =>
    xorBytes (block.Decrypt (src.take 16)) iv ++
      cbcDecryptBlocks block n (src.take 16) (src.drop 16)

/-- `cipher.NewCBCDecrypter(block, iv).CryptBlocks(dst, src)` for a `dst` as long as
`src`: panics with "input not full blocks" unless `len(src)` is a multiple of the
block size; otherwise `dst` is the decryption of all the blocks of `src`. -/
def CryptBlocks (block : Block) (iv src : List Byte) : GoResult (List Byte) :=
  if src.length % 16 ≠ 0 then .aborted .inputNotFullBlocks
  else .ok (cbcDecryptBlocks block (src.length / 16) iv src)

/-- `AesDecryptCBC(data, key)`. -/
def AesDecryptCBC (aes : AES) (data key : List Byte) : GoResult (List Byte) :=
  if data.length < 16 then .error .ciphertextTooShort
  else
    let remainder := data.length % 16
    let data := if remainder ≠ 0 then data.take (data.length - remainder) else data
    match aes.NewCipher key with
    | .error err => .error err
    | .ok block =>
      let iv := List.replicate 16 (0 : Byte)
      CryptBlocks block iv data

/-- The part of the environment the two file readers use: `strings.ToLower` and
`ioutil.ReadFile(filepath.Join(backupRoot, subdir, fileID))`. -/
structure BackupFiles where
  ToLower : List Byte → List Byte
  ReadFile : List Byte → List Byte → List Byte → Except Error (List Byte)

/-- The statement `if len(buf) > fileSize { buf = buf[:fileSize] }` (lines 182-184
and 221-223); the slice expression panics for a negative `fileSize`. -/
def truncateToSize (buf : List Byte) (fileSize : Int) : GoResult (List Byte) :=
  if (buf.length : Int) > fileSize then
    if fileSize < 0 then .aborted .indexOutOfRange else .ok (buf.take fileSize.toNat)
  else .ok buf

/-- `GetUnencryptedFileFromBackup(kb, backupRoot, fileID, fileSize)`; `fileID[:2]`
panics on a `fileID` of fewer than 2 bytes. -/
def GetUnencryptedFileFromBackup (fs : BackupFiles) (_kb : Keybag)
    (backupRoot fileID : List Byte) (fileSize : Int) : GoResult (List Byte) :=
  if fileID.length < 2 then .aborted .indexOutOfRange
  else
    let subdir := fs.ToLower (fileID.take 2)
    match fs.ReadFile backupRoot subdir fileID with
    | .error err => .error (.readBackupFileFailed err)
    | .ok unEncData => truncateToSize unEncData fileSize

/-- `DecryptFileFromBackup(kb, backupRoot, fileID, protClass, wrappedKey, fileSize)`;
`uint32(protClass)` keeps the low 32 bits. -/
def DecryptFileFromBackup (aes : AES) (fs : BackupFiles) (kb : Keybag)
    (backupRoot fileID : List Byte) (protClass : Int) (wrappedKey : List Byte)
    (fileSize : Int) : GoResult (List Byte) :=
  match (mapGet kb.ClassKeys (protClass % 2 ^ 32).toNat).bind (fun cKey => cKey.KEY) with
  | none => .error (.classKeyNotAvailable protClass)
  | some key =>
    if wrappedKey.length ≠ 0x28 then .error (.invalidFileKeyLength wrappedKey.length)
    else
      match AesUnwrap aes key wrappedKey with
      | .error err => .error (.unwrapFileKeyFailed err)
      | .ok realKey =>
        if fileID.length < 2 then .aborted .indexOutOfRange
        else
          let subdir := fs.ToLower (fileID.take 2)
          match fs.ReadFile backupRoot subdir fileID with
          | .error err => .error (.readBackupFileFailed err)
          | .ok encData =>
            match AesDecryptCBC aes encData realKey with
            | .error err => .error (.aesDecryptionError err)
            | .aborted p => .aborted p
            | .ok dec => truncateToSize dec fileSize

/-! ## `manifest.go`: `ParseFileBlob` -/

/-- A value of a decoded plist dictionary, as far as the model looks into it. -/
inductive PlistValue where
  | uid (n : Nat)
  | integer (i : Int)
  | data (bytes : List Byte)
  | str (s : String)
  | other
  deriving DecidableEq, Repr

/-- An entry of `$objects`: a dictionary (`map[string]interface{}`) or anything
else. -/
inductive PlistObject where
  | dict (entries : List (String × PlistValue))
  | other (v : PlistValue)
  deriving DecidableEq, Repr

/-- `types.MBFileArchive`, the part that `ParseFileBlob` reads: `$objects` and
`$top.root` (a `plist.UID`, which is a `uint64`). -/
structure MBFileArchive where
  Objects : List PlistObject
  Root : Nat
  deriving DecidableEq, Repr

/-- `types.MBFile`. -/
structure MBFile where
  Class : Nat
  Birth : Int
  Flags : Int
  GroupID : Int
  InodeNumber : Int
  LastModified : Int
  LastStatusChange : Int
  Mode : Int
  ProtectionClass : Int
  RelativePath : Nat
  Size : Int
  UserID : Int
  EncryptionKey : Nat
  deriving DecidableEq, Repr

/-- `github.com/mitchellh/mapstructure` with `WeaklyTypedInput`, as `DecodeMapToStruct`
uses it: how a struct field finds its key in the map (`lookup`) and how a value is
converted to an `int`, a `plist.UID` or a `[]byte` field. -/
structure Mapstructure where
  lookup : List (String × PlistValue) → String → Option PlistValue
  asInt : PlistValue → Except Error Int
  asUID : PlistValue → Except Error Nat
  asBytes : PlistValue → Except Error (List Byte)

/-- One field of the target struct: its zero value when the map has no key for it,
the converted value otherwise. -/
def Mapstructure.field {α : Type} (ms : Mapstructure) (m : List (String × PlistValue))
    (name : String) (zero : α) (conv : PlistValue → Except Error α) : Except Error α :=
  match ms.lookup m name with
  | none => .ok zero
  | some v => conv v

/-- `DecodeMapToStruct(fileMap, &file)` for `file` a zero `types.MBFile`: an error
when any field fails to convert. -/
def decodeMBFile (ms : Mapstructure) (m : List (String × PlistValue)) : Except Error MBFile := do
  let cls ← ms.field m "$class" 0 ms.asUID
  let birth ← ms.field m "Birth" 0 ms.asInt
  let flags ← ms.field m "Flags" 0 ms.asInt
  let groupID ← ms.field m "GroupID" 0 ms.asInt
  let inodeNumber ← ms.field m "InodeNumber" 0 ms.asInt
  let lastModified ← ms.field m "LastModified" 0 ms.asInt
  let lastStatusChange ← ms.field m "LastStatusChange" 0 ms.asInt
  let mode ← ms.field m "Mode" 0 ms.asInt
  let protectionClass ← ms.field m "ProtectionClass" 0 ms.asInt
  let relativePath ← ms.field m "RelativePath" 0 ms.asUID
  let size ← ms.field m "Size" 0 ms.asInt
  let userID ← ms.field m "UserID" 0 ms.asInt
  let encryptionKey ← ms.field m "EncryptionKey" 0 ms.asUID
  pure { Class := cls, Birth := birth, Flags := flags, GroupID := groupID,
         InodeNumber := inodeNumber, LastModified := lastModified,
         LastStatusChange := lastStatusChange, Mode := mode,
         ProtectionClass := protectionClass, RelativePath := relativePath, Size := size,
         UserID := userID, EncryptionKey := encryptionKey }

/-- `DecodeMapToStruct(keyMap, &key)` for `key` a zero `types.EncryptionKeyObject`:
its field `NSData`. -/
def decodeEncryptionKeyObject (ms : Mapstructure) (m : List (String × PlistValue)) :
    Except Error (List Byte) :=
  ms.field m "NS.data" [] ms.asBytes

/-- The conversion `int(u)` of a `uint64` on a 64-bit platform. -/
def intOfUint64 (u : Nat) : Int :=
  if u % 2 ^ 64 < 2 ^ 63 then ((u % 2 ^ 64 : Nat) : Int) else ((u % 2 ^ 64 : Nat) : Int) - 2 ^ 64

/-- The values `ParseFileBlob` returns on success. -/
structure FileMetadata where
  protectionClass : Int
  encryptionKey : List Byte
  fileSize : Int
  birth : Int
  lastModified : Int
  deriving DecidableEq, Repr

/-- Step 3 of `ParseFileBlob` (lines 170-187): the wrapped key that the root's
`EncryptionKey` uid leads to; nil when the uid is not followed. -/
def followEncryptionKey (ms : Mapstructure) (archive : MBFileArchive) (file : MBFile) :
    Except Error (List Byte) :=
  let encIndex := intOfUint64 file.EncryptionKey
  if encIndex > 0 ∧ encIndex < (archive.Objects.length : Int) then
    match archive.Objects.getD encIndex.toNat (.other .other) with
    | .dict keyMap =>
      match decodeEncryptionKeyObject ms keyMap with
      | .error err => .error (.decodeEncryptionKeyFailed err)
      | .ok nsData =>
        if nsData.length ≥ 4 + 0x28 then .ok (nsData.drop 4) else .ok nsData
    | .other _ => .ok []
  else .ok []

/-- `ParseFileBlob(blob)`, from the result `decoded` of `decoder.Decode(&archive)`. -/
def ParseFileBlob (ms : Mapstructure) (decoded : Except Error MBFileArchive) :
    Except Error FileMetadata :=
  match decoded with
  | .error decodeErr => .error (.plistDecodeFailed decodeErr)
  | .ok archive =>
    let rootIndex := intOfUint64 archive.Root
    if rootIndex < 0 ∨ rootIndex ≥ (archive.Objects.length : Int) then
      .error .rootUIDOutOfRange
    else
      match archive.Objects.getD rootIndex.toNat (.other .other) with
      | .other _ => .error .rootNotDictionary
      | .dict fileMap =>
        match decodeMBFile ms fileMap with
        | .error err => .error (.decodeMBFileFailed err)
        | .ok file =>
          match followEncryptionKey ms archive file with
          | .error err => .error err
          | .ok encryptionKey =>
            .ok { protectionClass := file.ProtectionClass, encryptionKey := encryptionKey,
                  fileSize := file.Size, birth := file.Birth,
                  lastModified := file.LastModified }

/-! ## The keybag TLV format (specification side) -/

/-- One record of the TLV stream: a tag and a payload. -/
structure Record where
  tag : List Byte
  val : List Byte
  deriving DecidableEq, Repr

/-- A record that the format can carry: a 4-byte tag, a payload length that fits a
`u32`. -/
def Record.WellFormed (r : Record) : Prop := r.tag.length = 4 ∧ r.val.length < 2 ^ 32

/-- A `u32` written big-endian. -/
def putUint32 (v : Nat) : List Byte :=
  [toByte (v / 2 ^ 24), toByte (v / 2 ^ 16), toByte (v / 2 ^ 8), toByte v]

/-- A record on the wire: `tag`, `length: u32 BE`, `length` payload bytes. -/
def encodeRecord (r : Record) : List Byte := r.tag ++ putUint32 r.val.length ++ r.val

/-- A stream of whole records. -/
def encodeTLV : List Record → List Byte
  | [] => []
  | r :: rs => encodeRecord r ++ encodeTLV rs

/-- The `switch` of `ParseKeybag` applied to a list of records in order, stopping at
the first one that does not end in `ok`. -/
def applyRecords : ParseState → List Record → Outcome ParseState
  | st, [] => .ok st
  | st, r :: rs =>
    match applyRecord st r.tag r.val with
    | .ok st' => applyRecords st' rs
    | .error e => .error e
    | .indexOutOfRange => .indexOutOfRange
    | .outOfFuel => .outOfFuel

/-- The payload of the last record of `rs` that carries `tag`. -/
def lastPayload : List Record → List Byte → Option (List Byte)
  | [], _ => none
  | r :: rs, tag =>
    match lastPayload rs tag with
    | some v => some v
    | none => if r.tag = tag then some r.val else none

/-- The last record carrying `tag`, read as a big-endian `u32`; `dflt` if there is
none. -/
def lastUint32 (rs : List Record) (tag : List Byte) (dflt : Nat) : Nat :=
  match lastPayload rs tag with
  | some v => BigEndian.Uint32 v
  | none => dflt

/-- The records of `rs` up to the first `UUID` record, that record excluded. -/
def untilUUID (rs : List Record) : List Record :=
  rs.takeWhile (fun r => decide (r.tag ≠ tagUUID))

/-- The blocks that the `UUID` records of a stream open: each `UUID` record with the
records that follow it up to the next `UUID` record. -/
def uuidBlocks : List Record → List (List Byte × List Record)
  | [] => []
  | r :: rs =>
    if r.tag = tagUUID then (r.val, untilUUID rs) :: uuidBlocks rs else uuidBlocks rs

/-- The class-key blocks of a stream: the blocks of every `UUID` record but the
first (which is the keybag's own). -/
def classKeyBlocks (rs : List Record) : List (List Byte × List Record) :=
  (uuidBlocks rs).drop 1

/-- The records of the stream before the second `UUID` record, the first `UUID`
record left out. -/
def topLevelRecords (rs : List Record) : List Record :=
  untilUUID rs ++ ((uuidBlocks rs).head?.map (fun b => b.2)).getD []

/-- A class key `ck` after the records `body` of its block: each of `CLAS`, `WRAP`,
`WPKY`, `KTYP` is the last such record of `body`, or as in `ck` if there is none. -/
def overlay (ck : ClassKey) (body : List Record) : ClassKey :=
  { CLAS := lastUint32 body tagCLAS ck.CLAS
    WRAP := lastUint32 body tagWRAP ck.WRAP
    WPKY := (lastPayload body tagWPKY).getD ck.WPKY
    KTYP := lastUint32 body tagKTYP ck.KTYP
    UUID := ck.UUID
    KEY := ck.KEY }

/-- The class key a block describes: the `UUID` payload that opens it and the last
`CLAS`, `WRAP`, `WPKY`, `KTYP` records inside it (zero or empty where absent). -/
def blockClassKey (b : List Byte × List Record) : ClassKey :=
  overlay (ClassKey.new b.1) b.2

/-- Committing class keys to the table in order: one with `CLAS = 0` is discarded,
the others are stored under their `CLAS`. -/
def commitBlocks (m : List (Nat × ClassKey)) (cks : List ClassKey) : List (Nat × ClassKey) :=
  cks.foldl (fun m ck => if ck.CLAS ≠ 0 then mapSet m ck.CLAS ck else m) m

/-- The tags that `ParseKeybag` handles itself. -/
def recognizedTags : List (List Byte) :=
  [tagTYPE, tagUUID, tagWRAP, tagCLAS, tagWPKY, tagKTYP, tagPBKY]

/-! ## Predicates used in the statements -/

/-- An attribute is present with at least `minLen` bytes. -/
def hasAttribute (kb : Keybag) (tag : List Byte) (minLen : Nat) : Prop :=
  ∃ v, mapGet kb.Attributes tag = some v ∧ minLen ≤ v.length

/-- The required attributes of the data model: `DPSL` and `SALT` non-empty, `DPIC`
and `ITER` of at least 4 bytes. -/
def RequiredAttributes (kb : Keybag) : Prop :=
  hasAttribute kb tagDPSL 1 ∧ hasAttribute kb tagDPIC 4 ∧
  hasAttribute kb tagSALT 1 ∧ hasAttribute kb tagITER 4

/-- The registers of the unwrap are in shape: `A` has 8 bytes, `R` has `n + 1`
slots, slot 0 is nil and slots `1..n` have 8 bytes. -/
def RegsOK (n : Nat) (s : List Byte × List (List Byte)) : Prop :=
  s.1.length = 8 ∧ s.2.length = n + 1 ∧ s.2.getD 0 [] = [] ∧
    ∀ i, 1 ≤ i → i ≤ n → (s.2.getD i []).length = 8

/-! ## RFC 3394 wrap (specification side)

The repository has no wrap; this is the key wrap of RFC 3394 section 2.2.1 as the
round-trip property names it. -/

/-- One step of the RFC 3394 wrap: `B = AES(K, A | R[i])`,
`A = MSB(64, B) ^ t` with `t = n*j + i`, `R[i] = LSB(64, B)`. -/
def wrapStep (block : Block) (n j : Nat) (s : List Byte × List (List Byte)) (i : Nat) :
    List Byte × List (List Byte) :=
  let B := block.Encrypt (s.1 ++ s.2.getD i [])
  let t := (n * j + i) % 2 ^ 64
  (BigEndian.PutUint64 (BigEndian.Uint64 (B.take 8) ^^^ t), s.2.set i (B.drop 8))

/-- The 64-bit blocks `P[1..n]` of a plaintext, with an unused slot 0. -/
def blocksOf (p : List Byte) (n : Nat) : List (List Byte) :=
  [] :: (List.range n).map (fun k => (p.drop (8 * k)).take 8)

/-- The registers after the six wrap rounds `j = 0..5`, `i = 1..n`, from
`A = a6a6a6a6a6a6a6a6`, `R[i] = P[i]`. -/
def wrapRegisters (block : Block) (p : List Byte) : List Byte × List (List Byte) :=
  let n := p.length / 8
  [0, 1, 2, 3, 4, 5].foldl
    (fun s j => (List.range' 1 n).foldl (wrapStep block n j) s) (integrityIV, blocksOf p n)

/-- RFC 3394 wrap of `p` under `kek`: `C = A | R[1] | ... | R[n]`. -/
def rfc3394Wrap (aes : AES) (kek p : List Byte) : List Byte :=
  let s := wrapRegisters (aes.cipher kek) p
  s.1 ++ (s.2.drop 1).flatten

/-! ## CBC decryption (specification side) -/

/-- Block `i` of a ciphertext. -/
def cipherBlock (c : List Byte) (i : Nat) : List Byte := (c.drop (16 * i)).take 16

/-- Zero-IV CBC decryption of the whole blocks of `c`, block by block:
`P[i] = Decrypt(C[i]) xor C[i-1]`, with sixteen zero bytes for `C[-1]`; nothing is
removed from the result. -/
def cbcDecryptZeroIV (block : Block) (c : List Byte) : List Byte :=
  ((List.range (c.length / 16)).map (fun i =>
    xorBytes (block.Decrypt (cipherBlock c i))
      (if i = 0 then List.replicate 16 0 else cipherBlock c (i - 1)))).flatten

/-! ## A toy block cipher, for concrete evaluation -/

/-- Sixteen bytes of `l`, zero padded. -/
def block16 (l : List Byte) : List Byte := (l ++ List.replicate 16 0).take 16

/-- A block cipher for evaluating the definitions on concrete inputs: adds the first
key byte to every byte and reverses the block. -/
def toyAES : AES where
  cipher := fun key =>
    { Encrypt := fun src => block16 ((src.map (fun b => b + key.headD 0)).reverse)
      Decrypt := fun src => block16 ((src.reverse).map (fun b => b - key.headD 0))
      Encrypt_length := by intro src; simp [block16]
      Decrypt_length := by intro src; simp [block16] }

/-! ## Concrete inputs -/

/-- A `Mapstructure` for evaluating the definitions: exact key match, and only the
conversions that change nothing. -/
def toyMapstructure : Mapstructure where
  lookup := fun m name => mapGet m name
  asInt := fun v => match v with
    | .integer i => .ok i
    | _ => .error (.weakDecodeFailed "int")
  asUID := fun v => match v with
    | .uid n => .ok n
    | _ => .error (.weakDecodeFailed "uid")
  asBytes := fun v => match v with
    | .data b => .ok b
    | _ => .error (.weakDecodeFailed "bytes")

/-- A backup directory in which every content blob is the 20 bytes `00 01 ... 13`. -/
def toyFiles : BackupFiles where
  ToLower := fun s => s
  ReadFile := fun _ _ _ => .ok ((List.range 20).map toByte)

/-- A `PBKDF2` for evaluating the definitions: 32 zero bytes whatever the input. -/
def toyPBKDF2 : PBKDF2 where
  Key := fun _ _ _ keyLen _ => List.replicate keyLen 0
  Key_length := by intros; simp

/-- A row of an encrypted file whose every call succeeds. -/
def encryptedRow (relativePath : String) : FileRow :=
  { scan := none
    relativePath := relativePath
    parseFileBlob := .ok { wrappedKey := List.replicate 40 1, fileSize := 13 }
    getUnencrypted := .ok (List.replicate 13 0)
    decryptFile := .ok (List.replicate 13 0)
    writeFileErr := none
    chtimes := none }

/-- The backup of the end-to-end scenarios 5 and 6: three encrypted files. -/
def threeFiles : List FileRow :=
  [encryptedRow "Library/Preferences/a.plist", encryptedRow "Library/Preferences/b.plist",
   encryptedRow "Library/Preferences/c.plist"]

/-- A keybag blob with the four passcode attributes and no class key. -/
def passcodeAttributesBlob : List Byte :=
  encodeTLV [⟨tagDPSL, [1, 2]⟩, ⟨tagDPIC, [0, 0, 0x27, 0x10]⟩, ⟨tagSALT, [3]⟩,
    ⟨tagITER, [0, 0, 0, 1]⟩]

/-- A stream with a keybag `UUID`, a top-level `WRAP`, and two class-key blocks with
`CLAS` 3 and 4. -/
def twoClassKeys : List Record :=
  [⟨tagTYPE, [0, 0, 0, 1]⟩, ⟨tagUUID, [9, 9]⟩, ⟨tagWRAP, [0, 0, 0, 3]⟩, ⟨tagDPSL, [5]⟩,
   ⟨tagUUID, [7]⟩, ⟨tagCLAS, [0, 0, 0, 3]⟩, ⟨tagWRAP, [0, 0, 0, 2]⟩, ⟨tagDPSL, [6]⟩,
   ⟨tagWPKY, [1, 1]⟩, ⟨tagKTYP, [0, 0, 0, 1]⟩, ⟨tagWPKY, [2, 2]⟩,
   ⟨tagUUID, [8]⟩, ⟨tagCLAS, [0, 0, 0, 4]⟩]

/-- The keybag `ParseKeybag` returns for `twoClassKeys`. -/
def twoClassKeysKeybag : Keybag :=
  { Typ := 1, UUID := some [9, 9], Wrap := 3,
    ClassKeys :=
      [(3, { CLAS := 3, WRAP := 2, WPKY := [2, 2], KTYP := 1, UUID := [7], KEY := none }),
       (4, { CLAS := 4, WRAP := 0, WPKY := [], KTYP := 0, UUID := [8], KEY := none })],
    Attributes := [(tagDPSL, [6])] }

/-- A keybag whose class 1 is passcode-wrapped with a 24-byte `WPKY`: the RFC 3394
wrap of the 16 bytes `00 01 ... 0f` under the key `07 07 ...` of the toy cipher. -/
def shortKeyKeybag : Keybag :=
  { Typ := 1, UUID := some [9], Wrap := 0,
    ClassKeys :=
      [(1, { CLAS := 1, WRAP := 2,
             WPKY := rfc3394Wrap toyAES (List.replicate 32 7) ((List.range 16).map toByte),
             KTYP := 0, UUID := [7], KEY := none })],
    Attributes := [] }

/-- A keybag whose class 1 is passcode-wrapped with a 40-byte `WPKY`. -/
def fullKeyKeybag : Keybag :=
  { Typ := 1, UUID := some [9], Wrap := 0,
    ClassKeys :=
      [(1, { CLAS := 1, WRAP := 2,
             WPKY := rfc3394Wrap toyAES (List.replicate 32 7) ((List.range 32).map toByte),
             KTYP := 0, UUID := [7], KEY := none })],
    Attributes := [] }

/-- A stream whose second block (`UUID` 08) never gets a `CLAS`. -/
def discardedBlock : List Record :=
  [⟨tagUUID, [9]⟩, ⟨tagUUID, [8]⟩, ⟨tagUUID, [7]⟩, ⟨tagCLAS, [0, 0, 0, 5]⟩]

/-- The keybag `ParseKeybag` returns for `discardedBlock`. -/
def discardedBlockKeybag : Keybag :=
  { Typ := 0, UUID := some [9], Wrap := 0,
    ClassKeys := [(5, { CLAS := 5, WRAP := 0, WPKY := [], KTYP := 0, UUID := [7], KEY := none })],
    Attributes := [] }

/-- A stream with a `PBKY` record. -/
def publicKeyStream : List Record :=
  [⟨tagUUID, [9]⟩, ⟨tagPBKY, [1, 2, 3]⟩, ⟨tagSALT, [4]⟩]

/-- The keybag `ParseKeybag` returns for `publicKeyStream`. -/
def publicKeyKeybag : Keybag :=
  { Typ := 0, UUID := some [9], Wrap := 0, ClassKeys := [], Attributes := [(tagSALT, [4])] }

/-- An unlocked class key: its `KEY` is `07 07 ...` (32 bytes). -/
def unlockedClassKey : ClassKey :=
  { CLAS := 1, WRAP := 2, WPKY := [], KTYP := 0, UUID := [7], KEY := some (List.replicate 32 7) }

/-- A keybag whose class 1 is `unlockedClassKey`. -/
def unlockedKeybag : Keybag :=
  { Typ := 1, UUID := some [9], Wrap := 0, ClassKeys := [(1, unlockedClassKey)],
    Attributes := [] }

/-- The 40-byte wrap of `00 01 ... 1f` under the class key of `unlockedKeybag`. -/
def wrappedFileKey : List Byte :=
  rfc3394Wrap toyAES (List.replicate 32 7) ((List.range 32).map toByte)

/-- A manifest key: class id 1, little-endian, then `wrappedFileKey`. -/
def manifestKey44 : List Byte := [1, 0, 0, 0] ++ wrappedFileKey

/-- The root dictionary of a file blob: size 13, protection class 1, and the given
`EncryptionKey` uid. -/
def rootDict (encryptionKey : Nat) : List (String × PlistValue) :=
  [("Size", .integer 13), ("ProtectionClass", .integer 1), ("Birth", .integer 1600000000),
   ("LastModified", .integer 1600000100), ("EncryptionKey", .uid encryptionKey)]

/-- A key object: `NS.data` is a 4-byte class tag and 40 bytes of wrapped key. -/
def keyDict : List (String × PlistValue) :=
  [("NS.data", .data ([1, 0, 0, 0] ++ List.replicate 40 5))]

/-- A file blob whose root (object 1) references the key object 2. -/
def encryptedArchive : MBFileArchive :=
  { Objects := [.other (.str "$null"), .dict (rootDict 2), .dict keyDict], Root := 1 }

/-- A file blob whose root has no `EncryptionKey` entry. -/
def unencryptedArchive : MBFileArchive :=
  { Objects := [.other (.str "$null"), .dict [("Size", .integer 5)]], Root := 1 }

/-- A file blob whose `EncryptionKey` uid 7 is past the end of the object table. -/
def danglingKeyArchive : MBFileArchive :=
  { Objects := [.other (.str "$null"), .dict (rootDict 7), .dict keyDict], Root := 1 }

/-- A file blob whose `EncryptionKey` uid 2 references a string, not a dictionary. -/
def keyNotDictArchive : MBFileArchive :=
  { Objects := [.other (.str "$null"), .dict (rootDict 2), .other (.str "MBFile")], Root := 1 }

/-! ## Lemmas: bytes, registers and the six rounds -/

theorem copy_of_length_eq (dst src : List Byte) (h : dst.length = src.length) :
    copy dst src = src := by
  simp [copy, h]

theorem copy_length (dst src : List Byte) : (copy dst src).length = dst.length := by
  simp [copy]; omega

theorem PutUint64_length (v : Nat) : (BigEndian.PutUint64 v).length = 8 := rfl

theorem foldl_be_lt (l : List Byte) (acc : Nat) :
    l.foldl (fun acc x => acc * 256 + x.val) acc < (acc + 1) * 256 ^ l.length := by
  induction l generalizing acc with
  | nil => simp
  | cons x xs ih =>
    simp only [List.foldl_cons, List.length_cons]
    refine lt_of_lt_of_le (ih _) ?_
    have hx := x.isLt
    rw [pow_succ, ← Nat.mul_assoc, Nat.mul_right_comm]
    exact Nat.mul_le_mul_right _ (by omega)

theorem Uint64_lt (b : List Byte) : BigEndian.Uint64 b < 2 ^ 64 := by
  unfold BigEndian.Uint64
  refine lt_of_lt_of_le (foldl_be_lt _ 0) ?_
  have h : (b.take 8).length ≤ 8 := by simp
  calc (0 + 1) * 256 ^ (b.take 8).length = 256 ^ (b.take 8).length := by simp
    _ ≤ 256 ^ 8 := Nat.pow_le_pow_right (by decide) h
    _ = 2 ^ 64 := by norm_num

theorem Uint64_PutUint64 (v : Nat) (h : v < 2 ^ 64) :
    BigEndian.Uint64 (BigEndian.PutUint64 v) = v := by
  simp only [BigEndian.Uint64, BigEndian.PutUint64, toByte, List.take, List.foldl]
  omega

theorem PutUint64_Uint64 (b : List Byte) (h : b.length = 8) :
    BigEndian.PutUint64 (BigEndian.Uint64 b) = b := by
  match b, h with
  | [b0, b1, b2, b3, b4, b5, b6, b7], _ =>
    simp only [BigEndian.Uint64, BigEndian.PutUint64, toByte, List.take, List.foldl]
    have h0 := b0.isLt; have h1 := b1.isLt; have h2 := b2.isLt; have h3 := b3.isLt
    have h4 := b4.isLt; have h5 := b5.isLt; have h6 := b6.isLt; have h7 := b7.isLt
    simp only [List.cons.injEq, and_true, Fin.ext_iff]
    refine ⟨?_, ?_, ?_, ?_, ?_, ?_, ?_, ?_⟩ <;> omega

theorem Xor64BE_Put_cancel (x t : Nat) (hx : x < 2 ^ 64) (ht : t < 2 ^ 64) :
    Xor64BE (BigEndian.PutUint64 (x ^^^ t)) t = BigEndian.PutUint64 x := by
  have hlt : x ^^^ t < 2 ^ 64 := Nat.xor_lt_two_pow hx ht
  simp only [Xor64BE, PutUint64_length, ne_eq, not_true_eq_false, if_false]
  rw [Uint64_PutUint64 _ hlt, Nat.xor_assoc, Nat.xor_self, Nat.xor_zero]


theorem getD_set_same (R : List (List Byte)) (i : Nat) (v : List Byte) (h : i < R.length) :
    (R.set i v).getD i [] = v := by
  simp [List.getD_eq_getElem?_getD, h]

theorem getD_set_other (R : List (List Byte)) (i k : Nat) (v : List Byte) (h : i ≠ k) :
    (R.set i v).getD k [] = R.getD k [] := by
  simp [List.getD_eq_getElem?_getD, List.getElem?_set_ne h]

theorem set_getD_same (R : List (List Byte)) (i : Nat) (h : i < R.length) :
    R.set i (R.getD i []) = R := by
  apply List.ext_getElem?
  intro k
  by_cases hk : i = k
  · subst hk; simp [List.getD_eq_getElem?_getD, h]
  · simp [List.getElem?_set_ne hk]

theorem wrapStep_ok (block : Block) (n j i : Nat) (s : List Byte × List (List Byte))
    (hs : RegsOK n s) (h1 : 1 ≤ i) (hn : i ≤ n) : RegsOK n (wrapStep block n j s i) := by
  obtain ⟨hA, hR, h0, hall⟩ := hs
  refine ⟨PutUint64_length _, by simp [wrapStep, hR], ?_, ?_⟩
  · simp only [wrapStep]
    rw [getD_set_other _ _ _ _ (by omega)]; exact h0
  · intro k hk1 hkn
    simp only [wrapStep]
    by_cases hik : i = k
    · subst hik
      rw [getD_set_same _ _ _ (by omega)]
      simp [block.Encrypt_length]
    · rw [getD_set_other _ _ _ _ hik]; exact hall k hk1 hkn

theorem unwrapStep_wrapStep (block : Block) (n j i : Nat) (s : List Byte × List (List Byte))
    (hinv : ∀ b : List Byte, b.length = 16 → block.Decrypt (block.Encrypt b) = b)
    (hs : RegsOK n s) (h1 : 1 ≤ i) (hn : i ≤ n) :
    unwrapStep block n j (wrapStep block n j s i) i = s := by
  obtain ⟨hA, hR, h0, hall⟩ := hs
  obtain ⟨A, R⟩ := s
  simp only at hA hR h0 hall
  have hi : i < R.length := by omega
  have hRi : (R.getD i []).length = 8 := hall i h1 hn
  have hblk : (A ++ R.getD i []).length = 16 := by rw [List.length_append, hA, hRi]
  have hB := block.Encrypt_length (A ++ R.getD i [])
  have ht : (n * j + i) % 2 ^ 64 < 2 ^ 64 := Nat.mod_lt _ (by positivity)
  have hbuf : Xor64BE (BigEndian.PutUint64
        (BigEndian.Uint64 ((block.Encrypt (A ++ R.getD i [])).take 8) ^^^ ((n * j + i) % 2 ^ 64)))
        ((n * j + i) % 2 ^ 64) ++ (block.Encrypt (A ++ R.getD i [])).drop 8
      = block.Encrypt (A ++ R.getD i []) := by
    rw [Xor64BE_Put_cancel _ _ (Uint64_lt _) ht, PutUint64_Uint64 _ (by rw [List.length_take, hB]; rfl)]
    exact List.take_append_drop 8 _
  simp only [unwrapStep, wrapStep]
  rw [getD_set_same _ _ _ hi, hbuf, hinv _ hblk]
  have e1 : (A ++ R.getD i []).take 8 = A := by simp [← hA]
  have e2 : ((A ++ R.getD i []).drop 8).take 8 = R.getD i [] := by
    rw [← hA, List.drop_left, hA, ← hRi, List.take_length]
  rw [e1, e2, copy_of_length_eq _ _ (by rw [PutUint64_length, hA]),
    copy_of_length_eq _ _ (by rw [List.length_drop, hB, hRi]), List.set_set, set_getD_same _ _ hi]

theorem foldl_keeps {σ ι : Type} (P : σ → Prop) (w : σ → ι → σ) (L : List ι)
    (hP : ∀ s i, i ∈ L → P s → P (w s i)) (s : σ) (hs : P s) : P (L.foldl w s) := by
  induction L generalizing s with
  | nil => exact hs
  | cons x xs ih =>
    simp only [List.foldl_cons]
    exact ih (fun s i hi => hP s i (List.mem_cons_of_mem _ hi)) _ (hP s x (List.mem_cons_self _ _) hs)

theorem foldl_undo {σ ι : Type} (P : σ → Prop) (w u : σ → ι → σ) (L : List ι)
    (hP : ∀ s i, i ∈ L → P s → P (w s i))
    (hinv : ∀ s i, i ∈ L → P s → u (w s i) i = s) (s : σ) (hs : P s) :
    L.reverse.foldl u (L.foldl w s) = s := by
  induction L generalizing s with
  | nil => rfl
  | cons x xs ih =>
    simp only [List.foldl_cons, List.reverse_cons, List.foldl_append, List.foldl_nil]
    rw [ih (fun s i hi => hP s i (List.mem_cons_of_mem _ hi))
      (fun s i hi => hinv s i (List.mem_cons_of_mem _ hi)) _ (hP s x (List.mem_cons_self _ _) hs)]
    exact hinv s x (List.mem_cons_self _ _) hs


theorem flatten_length_eight (L : List (List Byte)) (h : ∀ x ∈ L, x.length = 8) :
    L.flatten.length = 8 * L.length := by
  induction L with
  | nil => rfl
  | cons x xs ih =>
    simp only [List.flatten_cons, List.length_append, List.length_cons]
    rw [ih (fun y hy => h y (List.mem_cons_of_mem _ hy)), h x (List.mem_cons_self _ _)]
    omega

theorem chunk_flatten (L : List (List Byte)) (h : ∀ x ∈ L, x.length = 8) (j : Nat)
    (hj : j < L.length) : (L.flatten.drop (8 * j)).take 8 = L.getD j [] := by
  induction L generalizing j with
  | nil => simp at hj
  | cons x xs ih =>
    have hx : x.length = 8 := h x (List.mem_cons_self _ _)
    cases j with
    | zero =>
      simp only [List.flatten_cons, Nat.mul_zero, List.drop_zero, List.getD_cons_zero]
      rw [← hx, List.take_left]
    | succ k =>
      simp only [List.flatten_cons, List.getD_cons_succ]
      have : 8 * (k + 1) = x.length + 8 * k := by omega
      rw [this, List.drop_append]
      exact ih (fun y hy => h y (List.mem_cons_of_mem _ hy)) k (by simpa using hj)

theorem eq_of_getD_eq (R S : List (List Byte)) (hlen : R.length = S.length)
    (h : ∀ k, k < R.length → R.getD k [] = S.getD k []) : R = S := by
  apply List.ext_getElem hlen
  intro k h1 h2
  have := h k h1
  simpa [List.getD_eq_getElem?_getD, h1, h2] using this

theorem loadR_fold (wrapped : List Byte) (n : Nat) (m : Nat) :
    ∃ S : List (List Byte),
      (List.range' 1 m).foldl
        (fun (s : List (List Byte) × Nat) i =>
          (s.1.set i (copy (List.replicate 8 0) ((wrapped.drop s.2).take 8)), s.2 + 8))
        (List.replicate (n + 1) [], 8) = (S, 8 * (m + 1)) ∧
      S.length = n + 1 ∧
      ∀ k, S.getD k [] =
        if 1 ≤ k ∧ k ≤ m ∧ k ≤ n then copy (List.replicate 8 0) ((wrapped.drop (8 * k)).take 8)
        else [] := by
  induction m with
  | zero =>
    refine ⟨List.replicate (n + 1) [], rfl, by simp, ?_⟩
    intro k
    have : ¬ (1 ≤ k ∧ k ≤ 0 ∧ k ≤ n) := by omega
    simp only [this, if_false]
    simp only [List.getD_eq_getElem?_getD, List.getElem?_replicate]
    split <;> rfl
  | succ m ih =>
    obtain ⟨S, hS, hlen, hget⟩ := ih
    rw [List.range'_1_concat, List.foldl_append, hS]
    refine ⟨_, by simp only [List.foldl_cons, List.foldl_nil]; rw [show 8 * (m + 1) + 8 = 8 * (m + 1 + 1) by omega], by simp [hlen], ?_⟩
    intro k
    by_cases hk : 1 + m = k
    · subst hk
      by_cases hmn : 1 + m ≤ n
      · rw [getD_set_same _ _ _ (by omega)]
        have : (1 ≤ 1 + m ∧ 1 + m ≤ m + 1 ∧ 1 + m ≤ n) := by omega
        simp only [this, and_self, if_true]
        rw [show 8 * (m + 1) = 8 * (1 + m) by omega]
      · have : ¬ (1 ≤ 1 + m ∧ 1 + m ≤ m + 1 ∧ 1 + m ≤ n) := by omega
        simp only [this, if_false]
        simp only [List.getD_eq_getElem?_getD]
        rw [List.getElem?_eq_none (by simp [hlen]; omega)]
        rfl
    · rw [getD_set_other _ _ _ _ hk, hget k]
      have : (1 ≤ k ∧ k ≤ m ∧ k ≤ n) ↔ (1 ≤ k ∧ k ≤ m + 1 ∧ k ≤ n) := by omega
      simp only [this]

theorem loadR_eq (wrapped : List Byte) (n : Nat) (R : List (List Byte))
    (hlen : R.length = n + 1) (h0 : R.getD 0 [] = [])
    (hch : ∀ i, 1 ≤ i → i ≤ n →
      copy (List.replicate 8 0) ((wrapped.drop (8 * i)).take 8) = R.getD i []) :
    loadR wrapped n = R := by
  obtain ⟨S, hS, hSlen, hget⟩ := loadR_fold wrapped n n
  unfold loadR
  rw [hS]
  apply eq_of_getD_eq _ _ (by simp only [hSlen, hlen])
  intro k hk
  rw [hget k]
  by_cases h : 1 ≤ k ∧ k ≤ n ∧ k ≤ n
  · simp only [h, and_self, if_true]; exact hch k h.1 h.2.1
  · simp only [h, if_false]
    have : k = 0 := by simp only [hSlen] at hk; omega
    subst this; exact h0.symm

theorem flattenR_fold (R : List (List Byte)) (m : Nat) :
    (List.range' 1 m).foldl (fun result i => result ++ R.getD i []) []
      = ((R.drop 1).take m).flatten := by
  induction m with
  | zero => rfl
  | succ m ih =>
    rw [List.range'_1_concat, List.foldl_append, ih, List.take_succ]
    simp only [List.foldl_cons, List.foldl_nil, List.flatten_append]
    congr 1
    simp only [List.getD_eq_getElem?_getD, List.getElem?_drop]
    cases h : R[1 + m]? <;> simp

theorem flattenR_eq (R : List (List Byte)) (n : Nat) (hlen : R.length = n + 1) :
    flattenR R n = (R.drop 1).flatten := by
  unfold flattenR
  rw [flattenR_fold, List.take_of_length_le (by simp [hlen])]


theorem RegsOK_drop_one (n : Nat) (s : List Byte × List (List Byte)) (hs : RegsOK n s) :
    ∀ x ∈ s.2.drop 1, x.length = 8 := by
  obtain ⟨_, hR, _, hall⟩ := hs
  intro x hx
  obtain ⟨k, hk, rfl⟩ := List.mem_iff_getElem.mp hx
  simp only [List.length_drop, hR] at hk
  have := hall (k + 1) (by omega) (by omega)
  simpa [List.getD_eq_getElem?_getD, List.getElem?_eq_getElem (show k + 1 < s.2.length by omega)]
    using this

theorem blocksOf_flatten (p : List Byte) (n : Nat) :
    ((List.range n).map (fun k => (p.drop (8 * k)).take 8)).flatten = p.take (8 * n) := by
  induction n with
  | zero => simp
  | succ n ih =>
    rw [List.range_succ, List.map_append, List.flatten_append, ih]
    simp only [List.map_cons, List.map_nil, List.flatten_cons, List.flatten_nil, List.append_nil]
    rw [show 8 * (n + 1) = 8 * n + 8 by omega, List.take_add]

theorem blocksOf_ok (p : List Byte) (n : Nat) (h : 8 * n ≤ p.length) :
    RegsOK n (integrityIV, blocksOf p n) := by
  refine ⟨rfl, by simp [blocksOf], rfl, ?_⟩
  intro i h1 hn
  obtain ⟨k, rfl⟩ : ∃ k, i = k + 1 := ⟨i - 1, by omega⟩
  simp only [blocksOf, List.getD_eq_getElem?_getD, List.getElem?_cons_succ]
  rw [List.getElem?_map, List.getElem?_range (by omega)]
  simp only [Option.map_some', Option.getD_some, List.length_take, List.length_drop]
  omega

theorem wrapRegisters_ok (block : Block) (p : List Byte) :
    RegsOK (p.length / 8) (wrapRegisters block p) := by
  unfold wrapRegisters
  apply foldl_keeps (RegsOK (p.length / 8))
  · intro s j _ hs
    apply foldl_keeps (RegsOK (p.length / 8)) _ _ _ s hs
    intro s i hi hs
    rw [List.mem_range'_1] at hi
    exact wrapStep_ok block _ j i s hs hi.1 (by omega)
  · exact blocksOf_ok p _ (Nat.mul_div_le _ _)

theorem unwrapRounds_wrapRegisters (block : Block) (p : List Byte)
    (hinv : ∀ b : List Byte, b.length = 16 → block.Decrypt (block.Encrypt b) = b) :
    unwrapRounds block (p.length / 8) (wrapRegisters block p)
      = (integrityIV, blocksOf p (p.length / 8)) := by
  unfold unwrapRounds wrapRegisters
  have hrev : ([5, 4, 3, 2, 1, 0] : List Nat) = [0, 1, 2, 3, 4, 5].reverse := rfl
  rw [hrev]
  apply foldl_undo (RegsOK (p.length / 8))
    (fun s j => (List.range' 1 (p.length / 8)).foldl (wrapStep block (p.length / 8) j) s)
    (fun s j => (List.range' 1 (p.length / 8)).reverse.foldl (unwrapStep block (p.length / 8) j) s)
  · intro s j _ hs
    apply foldl_keeps (RegsOK (p.length / 8)) _ _ _ s hs
    intro s i hi hs
    rw [List.mem_range'_1] at hi
    exact wrapStep_ok block _ j i s hs hi.1 (by omega)
  · intro s j _ hs
    apply foldl_undo (RegsOK (p.length / 8)) _ _ _ _ _ s hs
    · intro s i hi hs
      rw [List.mem_range'_1] at hi
      exact wrapStep_ok block _ j i s hs hi.1 (by omega)
    · intro s i hi hs
      rw [List.mem_range'_1] at hi
      exact unwrapStep_wrapStep block _ j i s hinv hs hi.1 (by omega)
  · exact blocksOf_ok p _ (Nat.mul_div_le _ _)

/-- The registers `AesUnwrap` loads from `A | R[1] | ... | R[n]` are `(A, R)`. -/
theorem unwrapRegisters_of_concat (block : Block) (n : Nat) (s : List Byte × List (List Byte))
    (hs : RegsOK n s) :
    (s.1 ++ (s.2.drop 1).flatten).length = 8 * (n + 1) ∧
    unwrapRegisters block (s.1 ++ (s.2.drop 1).flatten) = unwrapRounds block n s := by
  have hall8 := RegsOK_drop_one n s hs
  obtain ⟨hA, hR, h0, hall⟩ := hs
  have hfl : (s.2.drop 1).flatten.length = 8 * n := by
    rw [flatten_length_eight _ hall8, List.length_drop, hR]; simp
  have hlen : (s.1 ++ (s.2.drop 1).flatten).length = 8 * (n + 1) := by
    rw [List.length_append, hA, hfl]; omega
  refine ⟨hlen, ?_⟩
  unfold unwrapRegisters
  have hn : (s.1 ++ (s.2.drop 1).flatten).length / 8 - 1 = n := by rw [hlen]; omega
  dsimp only
  rw [hn]
  have hA' : copy (List.replicate 8 0) ((s.1 ++ (s.2.drop 1).flatten).take 8) = s.1 := by
    rw [← hA, List.take_left, copy_of_length_eq _ _ (by simp [hA])]
  have hRl : loadR (s.1 ++ (s.2.drop 1).flatten) n = s.2 := by
    apply loadR_eq _ _ _ hR h0
    intro i h1 hi
    have e : 8 * i = s.1.length + 8 * (i - 1) := by omega
    rw [e, List.drop_append, chunk_flatten _ hall8 (i - 1) (by simp [hR]; omega)]
    have hg : (s.2.drop 1).getD (i - 1) [] = s.2.getD i [] := by
      simp only [List.getD_eq_getElem?_getD, List.getElem?_drop]
      rw [show 1 + (i - 1) = i by omega]
    rw [hg, copy_of_length_eq _ _ (by rw [hall i h1 hi]; rfl)]
  rw [hA', hRl]

theorem AesUnwrap_rfc3394Wrap (aes : AES) (kek p : List Byte)
    (hkey : kek.length = 16 ∨ kek.length = 24 ∨ kek.length = 32)
    (hp8 : p.length % 8 = 0) (hp : 8 ≤ p.length)
    (hinv : ∀ b : List Byte, b.length = 16 →
      (aes.cipher kek).Decrypt ((aes.cipher kek).Encrypt b) = b) :
    AesUnwrap aes kek (rfc3394Wrap aes kek p) = .ok p := by
  have hok := wrapRegisters_ok (aes.cipher kek) p
  obtain ⟨hlen, hregs⟩ := unwrapRegisters_of_concat (aes.cipher kek) _ _ hok
  have hn : 1 ≤ p.length / 8 := by omega
  unfold AesUnwrap
  have hw : rfc3394Wrap aes kek p
      = (wrapRegisters (aes.cipher kek) p).1 ++ ((wrapRegisters (aes.cipher kek) p).2.drop 1).flatten := rfl
  rw [hw]
  have hc : ¬ (((wrapRegisters (aes.cipher kek) p).1 ++
      ((wrapRegisters (aes.cipher kek) p).2.drop 1).flatten).length < 16 ∨
      ((wrapRegisters (aes.cipher kek) p).1 ++
      ((wrapRegisters (aes.cipher kek) p).2.drop 1).flatten).length % 8 ≠ 0) := by
    rw [hlen]; omega
  rw [if_neg hc]
  simp only [AES.NewCipher, if_pos hkey]
  rw [hregs, unwrapRounds_wrapRegisters _ _ hinv]
  simp only [ne_eq, not_true_eq_false, if_false]
  rw [hlen, show 8 * (p.length / 8 + 1) / 8 - 1 = p.length / 8 by omega,
    flattenR_eq _ _ (by simp [blocksOf])]
  simp only [blocksOf, List.drop_succ_cons, List.drop_zero]
  rw [blocksOf_flatten, List.take_of_length_le (by omega)]

theorem block16_of_length (l : List Byte) (h : l.length = 16) : block16 l = l := by
  unfold block16
  rw [List.take_append_of_le_length (by omega), ← h, List.take_length]

/-- The toy cipher's `Decrypt` undoes its `Encrypt` on every 16-byte block. -/
theorem toyAES_Decrypt_Encrypt (key b : List Byte) (h : b.length = 16) :
    (toyAES.cipher key).Decrypt ((toyAES.cipher key).Encrypt b) = b := by
  have h1 : ((b.map (fun x => x + key.headD 0)).reverse).length = 16 := by
    rw [List.length_reverse, List.length_map, h]
  have h2 : (b.map (fun x => x + key.headD 0)).length = 16 := by
    rw [List.length_map, h]
  show block16 ((block16 ((b.map (fun x => x + key.headD 0)).reverse)).reverse.map
    (fun x => x - key.headD 0)) = b
  rw [block16_of_length _ h1, List.reverse_reverse, List.map_map,
    block16_of_length _ (by rw [List.length_map, h])]
  conv_rhs => rw [← List.map_id b]
  apply List.map_congr_left
  intro x _
  simp

/-! ## C1: RFC 3394 round trip -/

/-- C1. RFC 3394 round trip: for every 32-byte KEK and every 32-byte plaintext `p`,
`AesUnwrap(KEK, wrap(KEK, p))` succeeds and returns exactly `p`, where `wrap` is the
RFC 3394 key wrap under the same block cipher; the only property of the cipher used
is that block `Decrypt` is the inverse of block `Encrypt`. -/
theorem AesUnwrap_wrap_roundtrip (aes : AES) (kek p : List Byte)
    (hkek : kek.length = 32) (hp : p.length = 32)
    (hinv : ∀ b : List Byte, b.length = 16 →
      (aes.cipher kek).Decrypt ((aes.cipher kek).Encrypt b) = b) :
    AesUnwrap aes kek (rfc3394Wrap aes kek p) = .ok p :=
  AesUnwrap_rfc3394Wrap aes kek p (Or.inr (Or.inr hkek)) (by omega) (by omega) hinv

/-- C1 at a concrete input: the toy cipher, the key `07 07 ...` and the plaintext
`00 01 ... 1f`. -/
theorem AesUnwrap_wrap_roundtrip_witness :
    (List.replicate 32 (7 : Byte)).length = 32 ∧
    ((List.range 32).map toByte).length = 32 ∧
    AesUnwrap toyAES (List.replicate 32 7) (rfc3394Wrap toyAES (List.replicate 32 7)
      ((List.range 32).map toByte)) = .ok ((List.range 32).map toByte) :=
  ⟨by decide, by decide,
    AesUnwrap_wrap_roundtrip toyAES (List.replicate 32 7) ((List.range 32).map toByte)
      (by decide) (by decide) (toyAES_Decrypt_Encrypt _)⟩

/-! ## C2: when `AesUnwrap` fails -/

theorem unwrapStep_ok (block : Block) (n j i : Nat) (s : List Byte × List (List Byte))
    (hs : RegsOK n s) (h1 : 1 ≤ i) (hn : i ≤ n) : RegsOK n (unwrapStep block n j s i) := by
  obtain ⟨hA, hR, h0, hall⟩ := hs
  refine ⟨by simp only [unwrapStep, copy_length, hA], by simp [unwrapStep, hR], ?_, ?_⟩
  · simp only [unwrapStep]
    rw [getD_set_other _ _ _ _ (by omega)]; exact h0
  · intro k hk1 hkn
    simp only [unwrapStep]
    by_cases hik : i = k
    · subst hik
      rw [getD_set_same _ _ _ (by omega), copy_length]
      exact hall i hk1 hkn
    · rw [getD_set_other _ _ _ _ hik]; exact hall k hk1 hkn

theorem loadR_ok (wrapped : List Byte) (n : Nat) :
    RegsOK n (copy (List.replicate 8 0) (wrapped.take 8), loadR wrapped n) := by
  obtain ⟨S, hS, hSlen, hget⟩ := loadR_fold wrapped n n
  unfold loadR
  rw [hS]
  refine ⟨by rw [copy_length]; rfl, hSlen, ?_, ?_⟩
  · show S.getD 0 [] = []
    rw [hget 0]
    have : ¬ (1 ≤ 0 ∧ 0 ≤ n ∧ 0 ≤ n) := by omega
    simp only [this, if_false]
  · intro i h1 hi
    show (S.getD i []).length = 8
    rw [hget i]
    have : 1 ≤ i ∧ i ≤ n ∧ i ≤ n := ⟨h1, hi, hi⟩
    simp only [this, and_self, if_true, copy_length]
    rfl

/-- The registers of `AesUnwrap` stay in shape through the six rounds. -/
theorem unwrapRegisters_ok (block : Block) (wrapped : List Byte) :
    RegsOK (wrapped.length / 8 - 1) (unwrapRegisters block wrapped) := by
  unfold unwrapRegisters unwrapRounds
  apply foldl_keeps (RegsOK (wrapped.length / 8 - 1))
  · intro s j _ hs
    apply foldl_keeps (RegsOK (wrapped.length / 8 - 1)) _ _ _ s hs
    intro s i hi hs
    rw [List.mem_reverse, List.mem_range'_1] at hi
    exact unwrapStep_ok block _ j i s hs hi.1 (by omega)
  · exact loadR_ok wrapped _

/-- C2. With a valid AES key, `AesUnwrap(kek, wrapped)` returns an error (and so no
output bytes) if and only if `len(wrapped) < 16`, or `len(wrapped)` is not a multiple
of 8, or the integrity register `A` after the six rounds differs from
`a6a6a6a6a6a6a6a6`; in every other case it returns `R[1]..R[n]` concatenated, which
is exactly `len(wrapped) - 8` bytes. -/
theorem AesUnwrap_error_iff (aes : AES) (kek wrapped : List Byte)
    (hkey : kek.length = 16 ∨ kek.length = 24 ∨ kek.length = 32) :
    ((∃ e, AesUnwrap aes kek wrapped = .error e) ↔
      (wrapped.length < 16 ∨ wrapped.length % 8 ≠ 0 ∨
        (unwrapRegisters (aes.cipher kek) wrapped).1 ≠ integrityIV)) ∧
    (¬ (wrapped.length < 16 ∨ wrapped.length % 8 ≠ 0 ∨
        (unwrapRegisters (aes.cipher kek) wrapped).1 ≠ integrityIV) →
      AesUnwrap aes kek wrapped
          = .ok (((unwrapRegisters (aes.cipher kek) wrapped).2.drop 1).flatten) ∧
      (((unwrapRegisters (aes.cipher kek) wrapped).2.drop 1).flatten).length
          = wrapped.length - 8) := by
  have hok := unwrapRegisters_ok (aes.cipher kek) wrapped
  have hfl := flattenR_eq _ _ hok.2.1
  constructor
  · constructor
    · rintro ⟨e, he⟩
      by_contra hcon
      simp only [not_or, not_not] at hcon
      obtain ⟨h1, h2, h3⟩ := hcon
      have hc : ¬ (wrapped.length < 16 ∨ wrapped.length % 8 ≠ 0) := by omega
      simp only [AesUnwrap, if_neg hc, AES.NewCipher, if_pos hkey, h3, ne_eq,
        not_true_eq_false, if_false] at he
      exact Except.noConfusion he
    · intro h
      by_cases hc : wrapped.length < 16 ∨ wrapped.length % 8 ≠ 0
      · exact ⟨.invalidWrappedKeyLength, by simp only [AesUnwrap, if_pos hc]⟩
      · have h3 : (unwrapRegisters (aes.cipher kek) wrapped).1 ≠ integrityIV := by
          rcases h with h | h | h
          · exact absurd (Or.inl h) hc
          · exact absurd (Or.inr h) hc
          · exact h
        exact ⟨.unwrapCheckFailed,
          by simp only [AesUnwrap, if_neg hc, AES.NewCipher, if_pos hkey, if_pos h3]⟩
  · intro hcon
    simp only [not_or, not_not] at hcon
    obtain ⟨h1, h2, h3⟩ := hcon
    have hc : ¬ (wrapped.length < 16 ∨ wrapped.length % 8 ≠ 0) := by omega
    constructor
    · simp only [AesUnwrap, if_neg hc, AES.NewCipher, if_pos hkey, h3, ne_eq,
        not_true_eq_false, if_false, hfl]
    · rw [flatten_length_eight _ (RegsOK_drop_one _ _ hok), List.length_drop, hok.2.1]
      omega

/-- C2 at a concrete input: a 32-byte key of the toy cipher. -/
theorem AesUnwrap_error_iff_witness :
    ((∃ e, AesUnwrap toyAES (List.replicate 32 7) (List.replicate 24 1) = .error e) ↔
      ((List.replicate 24 (1 : Byte)).length < 16 ∨
        (List.replicate 24 (1 : Byte)).length % 8 ≠ 0 ∨
        (unwrapRegisters (toyAES.cipher (List.replicate 32 7)) (List.replicate 24 1)).1
          ≠ integrityIV)) ∧
    (¬ ((List.replicate 24 (1 : Byte)).length < 16 ∨
        (List.replicate 24 (1 : Byte)).length % 8 ≠ 0 ∨
        (unwrapRegisters (toyAES.cipher (List.replicate 32 7)) (List.replicate 24 1)).1
          ≠ integrityIV) →
      AesUnwrap toyAES (List.replicate 32 7) (List.replicate 24 1)
          = .ok (((unwrapRegisters (toyAES.cipher (List.replicate 32 7))
              (List.replicate 24 1)).2.drop 1).flatten) ∧
      (((unwrapRegisters (toyAES.cipher (List.replicate 32 7))
          (List.replicate 24 1)).2.drop 1).flatten).length
          = (List.replicate 24 (1 : Byte)).length - 8) :=
  AesUnwrap_error_iff toyAES (List.replicate 32 7) (List.replicate 24 1)
    (Or.inr (Or.inr (by decide)))

/-! ## C3: the target-file filter miss -/

/-- Whatever the rows, once the database opened, the query ran, no row failed to
scan and `rows.Err()` is nil, `ProcessFiles` returns nil, exits or panics: the branch
`targetFile != "" && !found` returns the nil `err`. -/
theorem processRows_no_error (targetFile : String) (relative : Bool) (rows : List FileRow)
    (found : Bool) (hscan : ∀ row ∈ rows, row.scan = none) :
    processRows targetFile relative none rows found = .returned none ∨
    processRows targetFile relative none rows found = .exited ∨
    ∃ p, processRows targetFile relative none rows found = .panicked p := by
  induction rows generalizing found with
  | nil =>
    left
    simp only [processRows, afterRows]
    split <;> [skip; split] <;> simp_all
  | cons row rest ih =>
    have hrow : row.scan = none := hscan row (List.mem_cons_self _ _)
    have hrest : ∀ r ∈ rest, r.scan = none := fun r hr => hscan r (List.mem_cons_of_mem _ hr)
    simp only [processRows]
    cases hflow : processRow targetFile relative found row with
    | next f => exact ih f hrest
    | stop f =>
      left
      simp only [afterRows]
      split <;> [skip; split] <;> simp_all
    | ret err =>
      exfalso
      simp only [processRow, hrow] at hflow
      repeat' split at hflow
      all_goals simp at hflow
    | fatal => right; left; rfl
    | panicked p => right; right; exact ⟨p, rfl⟩

/-- C3. Scenario 6 of the specification on the code: three extractable files and the
filter `"nope"`, which no `relativePath` contains.  `ProcessFiles` logs the miss and
returns `err`, which is nil at that point: no 'target file not found' error. -/
theorem ProcessFiles_filter_miss_returns_nil :
    ProcessFiles none none threeFiles none "nope" false = .returned none := by
  decide

/-! ## C4: where the required attributes are validated -/

/-- `DerivePasscodeKey` rejects every keybag that lacks a required attribute. -/
theorem DerivePasscodeKey_ok_required (kdf : PBKDF2) (kb : Keybag) (passcode key : List Byte)
    (h : DerivePasscodeKey kdf kb passcode = .ok key) : RequiredAttributes kb := by
  unfold DerivePasscodeKey at h
  split at h
  · exact Except.noConfusion h
  · rename_i dpsl hdpsl
    split at h
    · exact Except.noConfusion h
    · rename_i dpic hdpic
      split at h
      · exact Except.noConfusion h
      · rename_i salt hsalt
        split at h
        · exact Except.noConfusion h
        · rename_i iter hiter
          split at h
          · exact Except.noConfusion h
          · rename_i hlen
            exact ⟨⟨dpsl, hdpsl, by omega⟩, ⟨dpic, hdpic, by omega⟩, ⟨salt, hsalt, by omega⟩,
              ⟨iter, hiter, by omega⟩⟩

/-- C4 as stated fails: `ParseKeybag` accepts the empty blob and returns a keybag
with no attribute at all. -/
theorem ParseKeybag_accepts_without_attributes :
    ParseKeybag [] = .ok Keybag.new ∧ mapGet Keybag.new.Attributes tagDPSL = none ∧
    ¬ RequiredAttributes Keybag.new := by
  refine ⟨by decide, by decide, ?_⟩
  rintro ⟨⟨v, hv, _⟩, _⟩
  simp [Keybag.new, mapGet] at hv

/-- C4, amended. The required attributes are validated by `DerivePasscodeKey`, which
`ParseAndUnlockKeybag` calls on the parsed keybag: `DerivePasscodeKey` returns an
error for every keybag in which DPSL or SALT is missing or empty, or DPIC or ITER is
missing or shorter than 4 bytes, and `ParseAndUnlockKeybag` never returns a keybag
lacking them. -/
theorem required_attributes_validated (aes : AES) (kdf : PBKDF2) (mp : ManifestPlist)
    (passcode : List Byte) :
    (∀ kb : Keybag, ¬ RequiredAttributes kb →
      ∃ e, DerivePasscodeKey kdf kb passcode = .error e) ∧
    (∀ kb : Keybag, ParseAndUnlockKeybag aes kdf mp passcode = .ok kb →
      RequiredAttributes kb) := by
  constructor
  · intro kb hkb
    cases h : DerivePasscodeKey kdf kb passcode with
    | error e => exact ⟨e, rfl⟩
    | ok key => exact absurd (DerivePasscodeKey_ok_required kdf kb passcode key h) hkb
  · intro kb h
    unfold ParseAndUnlockKeybag at h
    split at h
    · exact Outcome.noConfusion h
    · exact Outcome.noConfusion h
    · exact Outcome.noConfusion h
    · rename_i kb0 _
      split at h
      · exact Outcome.noConfusion h
      · rename_i key hkey
        have hreq := DerivePasscodeKey_ok_required kdf kb0 passcode key hkey
        split at h
        · exact Outcome.noConfusion h
        · rename_i kb1 hunlock
          have hkb : kb = kb1 := by injection h with h; exact h.symm
          have hattr : kb1.Attributes = kb0.Attributes := by
            have := congrArg Prod.fst hunlock
            simp only [UnlockKeybagWithPasscode] at this
            rw [← this]
          subst hkb
          unfold RequiredAttributes hasAttribute at *
          rw [hattr]
          exact hreq

/-- C4, amended, at a concrete input: a blob that carries the four attributes is
parsed and unlocked, and the returned keybag has them. -/
theorem required_attributes_validated_witness :
    ∃ kb, ParseAndUnlockKeybag toyAES toyPBKDF2 ⟨passcodeAttributesBlob, []⟩ [0x31] = .ok kb ∧
      RequiredAttributes kb :=
  ⟨{ Typ := 0, UUID := none, Wrap := 0, ClassKeys := [],
     Attributes := [(tagDPSL, [1, 2]), (tagDPIC, [0, 0, 0x27, 0x10]), (tagSALT, [3]),
       (tagITER, [0, 0, 0, 1])] },
    by decide,
    (required_attributes_validated toyAES toyPBKDF2 ⟨passcodeAttributesBlob, []⟩ [0x31]).2 _
      (by decide)⟩

/-! ## `ParseKeybag` and the TLV format -/

theorem Uint32_lt (b : List Byte) : BigEndian.Uint32 b < 2 ^ 32 := by
  unfold BigEndian.Uint32
  refine lt_of_lt_of_le (foldl_be_lt _ 0) ?_
  have h : (b.take 4).length ≤ 4 := by simp
  calc (0 + 1) * 256 ^ (b.take 4).length = 256 ^ (b.take 4).length := by simp
    _ ≤ 256 ^ 4 := Nat.pow_le_pow_right (by decide) h
    _ = 2 ^ 32 := by norm_num

theorem Uint32_putUint32 (v : Nat) (h : v < 2 ^ 32) : BigEndian.Uint32 (putUint32 v) = v := by
  simp only [BigEndian.Uint32, putUint32, toByte, List.take, List.foldl]
  omega

theorem putUint32_Uint32 (b : List Byte) (h : b.length = 4) :
    putUint32 (BigEndian.Uint32 b) = b := by
  match b, h with
  | [b0, b1, b2, b3], _ =>
    simp only [BigEndian.Uint32, putUint32, toByte, List.take, List.foldl]
    have h0 := b0.isLt; have h1 := b1.isLt; have h2 := b2.isLt; have h3 := b3.isLt
    simp only [List.cons.injEq, and_true, Fin.ext_iff]
    refine ⟨?_, ?_, ?_, ?_⟩ <;> omega

theorem putUint32_length (v : Nat) : (putUint32 v).length = 4 := rfl

theorem encodeRecord_length (r : Record) :
    (encodeRecord r).length = r.tag.length + 4 + r.val.length := by
  simp only [encodeRecord, List.length_append, putUint32_length]

/-- One pass of the loop over a whole record. -/
theorem parseLoop_encodeRecord (fuel : Nat) (st : ParseState) (r : Record)
    (rest : List Byte) (hr : r.WellFormed) :
    parseLoop (fuel + 1) st (encodeRecord r ++ rest) =
      match applyRecord st r.tag r.val with
      | .ok st' => parseLoop fuel st' rest
      | .error e => .error e
      | .indexOutOfRange => .indexOutOfRange
      | .outOfFuel => .outOfFuel := by
  obtain ⟨htag, hval⟩ := hr
  have hlen : (encodeRecord r ++ rest).length = 8 + (r.val.length + rest.length) := by
    rw [List.length_append, encodeRecord_length, htag]; omega
  have htake8 : (encodeRecord r ++ rest).take 8 = r.tag ++ putUint32 r.val.length := by
    have : encodeRecord r ++ rest = (r.tag ++ putUint32 r.val.length) ++ (r.val ++ rest) := by
      simp [encodeRecord]
    rw [this, List.take_left' (by simp [htag, putUint32_length])]
  have hdrop8 : (encodeRecord r ++ rest).drop 8 = r.val ++ rest := by
    have : encodeRecord r ++ rest = (r.tag ++ putUint32 r.val.length) ++ (r.val ++ rest) := by
      simp [encodeRecord]
    rw [this, List.drop_left' (by simp [htag, putUint32_length])]
  have htag' : (r.tag ++ putUint32 r.val.length).take 4 = r.tag := by
    rw [List.take_left' htag]
  have hlen' : BigEndian.Uint32 ((r.tag ++ putUint32 r.val.length).drop 4) = r.val.length := by
    rw [List.drop_left' htag, Uint32_putUint32 _ hval]
  rw [parseLoop]
  have h0 : ¬ (encodeRecord r ++ rest).length = 0 := by omega
  have h8 : ¬ (encodeRecord r ++ rest).length < 8 := by omega
  simp only [h0, h8, if_false, htake8, hdrop8, htag', hlen']
  have hp : ¬ (r.val ++ rest).length < r.val.length := by simp
  simp only [hp, if_false, List.take_left, List.drop_left]

theorem encodeTLV_length (rs : List Record) (hwf : ∀ r ∈ rs, r.WellFormed) :
    8 * rs.length ≤ (encodeTLV rs).length := by
  induction rs with
  | nil => simp [encodeTLV]
  | cons r rs ih =>
    have h1 := (hwf r (List.mem_cons_self _ _)).1
    have h2 := ih (fun x hx => hwf x (List.mem_cons_of_mem _ hx))
    simp only [encodeTLV, List.length_append, List.length_cons, encodeRecord_length, h1]
    omega

/-- On a stream of whole records the loop is the `switch` applied record by record. -/
theorem parseLoop_encodeTLV (rs : List Record) (hwf : ∀ r ∈ rs, r.WellFormed) (fuel : Nat)
    (hfuel : rs.length < fuel) (st : ParseState) :
    parseLoop fuel st (encodeTLV rs) = applyRecords st rs := by
  induction rs generalizing fuel st with
  | nil =>
    obtain ⟨f, rfl⟩ : ∃ f, fuel = f + 1 := ⟨fuel - 1, by omega⟩
    simp [parseLoop, encodeTLV, applyRecords]
  | cons r rs ih =>
    obtain ⟨f, rfl⟩ : ∃ f, fuel = f + 1 := ⟨fuel - 1, by omega⟩
    simp only [encodeTLV, applyRecords]
    rw [parseLoop_encodeRecord _ _ _ _ (hwf r (List.mem_cons_self _ _))]
    cases applyRecord st r.tag r.val with
    | ok st' =>
      exact ih (fun x hx => hwf x (List.mem_cons_of_mem _ hx)) f
        (by simp only [List.length_cons] at hfuel; omega) st'
    | error e => rfl
    | indexOutOfRange => rfl
    | outOfFuel => rfl

/-- `ParseKeybag` on a stream of whole records. -/
theorem ParseKeybag_encodeTLV (rs : List Record) (hwf : ∀ r ∈ rs, r.WellFormed) :
    ParseKeybag (encodeTLV rs) =
      match applyRecords { kb := Keybag.new, currentCK := none } rs with
      | .ok st => .ok (commitCK st.kb st.currentCK)
      | .error e => .error e
      | .indexOutOfRange => .indexOutOfRange
      | .outOfFuel => .outOfFuel := by
  unfold ParseKeybag
  rw [parseLoop_encodeTLV rs hwf _ (by have := encodeTLV_length rs hwf; omega)]

/-- Whatever the loop accepts is a stream of whole records, and the final state is
that of the `switch` applied to them. -/
theorem parseLoop_ok_decode (fuel : Nat) (st st' : ParseState) (r : List Byte)
    (h : parseLoop fuel st r = .ok st') :
    ∃ rs : List Record, (∀ x ∈ rs, x.WellFormed) ∧ r = encodeTLV rs ∧
      applyRecords st rs = .ok st' := by
  induction fuel generalizing st r with
  | zero => simp [parseLoop] at h
  | succ fuel ih =>
    rw [parseLoop] at h
    by_cases h0 : r.length = 0
    · simp only [h0, if_true] at h
      injection h with h
      exact ⟨[], by simp, by simpa using h0, by simp [applyRecords, h]⟩
    · simp only [h0, if_false] at h
      by_cases h8 : r.length < 8
      · simp only [h8, if_true] at h
        exact Outcome.noConfusion h
      · simp only [h8, if_false] at h
        by_cases hp : (r.drop 8).length < BigEndian.Uint32 ((r.take 8).drop 4)
        · simp only [hp, if_true] at h
          exact Outcome.noConfusion h
        · simp only [hp, if_false] at h
          let rec0 : Record :=
            ⟨(r.take 8).take 4, (r.drop 8).take (BigEndian.Uint32 ((r.take 8).drop 4))⟩
          have hvlen : rec0.val.length = BigEndian.Uint32 ((r.take 8).drop 4) := by
            simp only [rec0, List.length_take]
            omega
          have hwf0 : rec0.WellFormed := by
            refine ⟨?_, ?_⟩
            · simp only [rec0, List.length_take]; omega
            · rw [hvlen]; exact Uint32_lt _
          have henc : encodeRecord rec0 ++
              (r.drop 8).drop (BigEndian.Uint32 ((r.take 8).drop 4)) = r := by
            simp only [encodeRecord, hvlen]
            rw [putUint32_Uint32 _ (by simp only [List.length_drop, List.length_take]; omega)]
            simp only [rec0, List.take_append_drop, List.append_assoc]
          cases hrec : applyRecord st ((r.take 8).take 4)
              ((r.drop 8).take (BigEndian.Uint32 ((r.take 8).drop 4))) with
          | ok st1 =>
            simp only [hrec] at h
            obtain ⟨rs, hwf, hrs, happ⟩ := ih st1 _ h
            refine ⟨rec0 :: rs, ?_, ?_, ?_⟩
            · intro x hx
              rcases List.mem_cons.mp hx with rfl | hx
              · exact hwf0
              · exact hwf x hx
            · simp only [encodeTLV, ← hrs]; exact henc.symm
            · simp only [applyRecords, rec0, hrec]; exact happ
          | error e => simp only [hrec] at h; exact Outcome.noConfusion h
          | indexOutOfRange => simp only [hrec] at h; exact Outcome.noConfusion h
          | outOfFuel => simp only [hrec] at h; exact Outcome.noConfusion h

/-- Every blob `ParseKeybag` accepts is a stream of whole records. -/
theorem ParseKeybag_ok_decode (blob : List Byte) (kb : Keybag) (h : ParseKeybag blob = .ok kb) :
    ∃ rs : List Record, (∀ x ∈ rs, x.WellFormed) ∧ blob = encodeTLV rs ∧
      ∃ st, applyRecords { kb := Keybag.new, currentCK := none } rs = .ok st ∧
        kb = commitCK st.kb st.currentCK := by
  unfold ParseKeybag at h
  split at h
  · rename_i st hst
    obtain ⟨rs, hwf, hrs, happ⟩ := parseLoop_ok_decode _ _ _ _ hst
    injection h with h
    exact ⟨rs, hwf, hrs, st, happ, h.symm⟩
  · exact Outcome.noConfusion h
  · exact Outcome.noConfusion h
  · exact Outcome.noConfusion h

theorem applyRecord_ne_outOfFuel (st : ParseState) (tag val : List Byte) :
    applyRecord st tag val ≠ .outOfFuel := by
  unfold applyRecord
  split_ifs <;> (try split) <;> simp

/-- The bounded loop never runs out of steps: every pass reads at least 8 bytes. -/
theorem parseLoop_ne_outOfFuel (fuel : Nat) (st : ParseState) (r : List Byte)
    (hfuel : r.length < fuel) : parseLoop fuel st r ≠ .outOfFuel := by
  induction fuel generalizing st r with
  | zero => omega
  | succ fuel ih =>
    rw [parseLoop]
    by_cases h0 : r.length = 0
    · simp [h0]
    · by_cases h8 : r.length < 8
      · simp [h0, h8]
      · by_cases hp : (r.drop 8).length < BigEndian.Uint32 ((r.take 8).drop 4)
        · simp only [h0, h8, hp, if_true, if_false]
          simp
        · simp only [h0, h8, hp, if_false]
          cases hrec : applyRecord st ((r.take 8).take 4)
              ((r.drop 8).take (BigEndian.Uint32 ((r.take 8).drop 4))) with
          | ok st1 =>
            simp only
            apply ih
            simp only [List.length_drop]
            omega
          | error e => simp
          | indexOutOfRange => simp
          | outOfFuel => exact absurd hrec (applyRecord_ne_outOfFuel _ _ _)

/-- `ParseKeybag` terminates on every blob: it returns a keybag, returns an error,
or aborts with the runtime panic. -/
theorem ParseKeybag_ne_outOfFuel (blob : List Byte) : ParseKeybag blob ≠ .outOfFuel := by
  unfold ParseKeybag
  have := parseLoop_ne_outOfFuel (blob.length + 1) { kb := Keybag.new, currentCK := none } blob
    (by omega)
  split <;> simp_all

/-! ## The `switch` of `ParseKeybag`, case by case -/

theorem tagTYPE_ne_tagUUID : tagTYPE ≠ tagUUID := by decide
theorem tagTYPE_ne_tagWRAP : tagTYPE ≠ tagWRAP := by decide
theorem tagTYPE_ne_tagCLAS : tagTYPE ≠ tagCLAS := by decide
theorem tagTYPE_ne_tagWPKY : tagTYPE ≠ tagWPKY := by decide
theorem tagTYPE_ne_tagKTYP : tagTYPE ≠ tagKTYP := by decide
theorem tagTYPE_ne_tagPBKY : tagTYPE ≠ tagPBKY := by decide
theorem tagUUID_ne_tagTYPE : tagUUID ≠ tagTYPE := by decide
theorem tagUUID_ne_tagWRAP : tagUUID ≠ tagWRAP := by decide
theorem tagUUID_ne_tagCLAS : tagUUID ≠ tagCLAS := by decide
theorem tagUUID_ne_tagWPKY : tagUUID ≠ tagWPKY := by decide
theorem tagUUID_ne_tagKTYP : tagUUID ≠ tagKTYP := by decide
theorem tagUUID_ne_tagPBKY : tagUUID ≠ tagPBKY := by decide
theorem tagWRAP_ne_tagTYPE : tagWRAP ≠ tagTYPE := by decide
theorem tagWRAP_ne_tagUUID : tagWRAP ≠ tagUUID := by decide
theorem tagWRAP_ne_tagCLAS : tagWRAP ≠ tagCLAS := by decide
theorem tagWRAP_ne_tagWPKY : tagWRAP ≠ tagWPKY := by decide
theorem tagWRAP_ne_tagKTYP : tagWRAP ≠ tagKTYP := by decide
theorem tagWRAP_ne_tagPBKY : tagWRAP ≠ tagPBKY := by decide
theorem tagCLAS_ne_tagTYPE : tagCLAS ≠ tagTYPE := by decide
theorem tagCLAS_ne_tagUUID : tagCLAS ≠ tagUUID := by decide
theorem tagCLAS_ne_tagWRAP : tagCLAS ≠ tagWRAP := by decide
theorem tagCLAS_ne_tagWPKY : tagCLAS ≠ tagWPKY := by decide
theorem tagCLAS_ne_tagKTYP : tagCLAS ≠ tagKTYP := by decide
theorem tagCLAS_ne_tagPBKY : tagCLAS ≠ tagPBKY := by decide
theorem tagWPKY_ne_tagTYPE : tagWPKY ≠ tagTYPE := by decide
theorem tagWPKY_ne_tagUUID : tagWPKY ≠ tagUUID := by decide
theorem tagWPKY_ne_tagWRAP : tagWPKY ≠ tagWRAP := by decide
theorem tagWPKY_ne_tagCLAS : tagWPKY ≠ tagCLAS := by decide
theorem tagWPKY_ne_tagKTYP : tagWPKY ≠ tagKTYP := by decide
theorem tagWPKY_ne_tagPBKY : tagWPKY ≠ tagPBKY := by decide
theorem tagKTYP_ne_tagTYPE : tagKTYP ≠ tagTYPE := by decide
theorem tagKTYP_ne_tagUUID : tagKTYP ≠ tagUUID := by decide
theorem tagKTYP_ne_tagWRAP : tagKTYP ≠ tagWRAP := by decide
theorem tagKTYP_ne_tagCLAS : tagKTYP ≠ tagCLAS := by decide
theorem tagKTYP_ne_tagWPKY : tagKTYP ≠ tagWPKY := by decide
theorem tagKTYP_ne_tagPBKY : tagKTYP ≠ tagPBKY := by decide
theorem tagPBKY_ne_tagTYPE : tagPBKY ≠ tagTYPE := by decide
theorem tagPBKY_ne_tagUUID : tagPBKY ≠ tagUUID := by decide
theorem tagPBKY_ne_tagWRAP : tagPBKY ≠ tagWRAP := by decide
theorem tagPBKY_ne_tagCLAS : tagPBKY ≠ tagCLAS := by decide
theorem tagPBKY_ne_tagWPKY : tagPBKY ≠ tagWPKY := by decide
theorem tagPBKY_ne_tagKTYP : tagPBKY ≠ tagKTYP := by decide

theorem mapGet_mapSet_same {κ α : Type} [DecidableEq κ] (m : List (κ × α)) (k : κ) (v : α) :
    mapGet (mapSet m k v) k = some v := by
  induction m with
  | nil => simp [mapSet, mapGet]
  | cons e rest ih =>
    obtain ⟨k', v'⟩ := e
    by_cases h : k' = k
    · simp [mapSet, mapGet, h]
    · simp [mapSet, mapGet, h, ih]

theorem mapGet_mapSet_other {κ α : Type} [DecidableEq κ] (m : List (κ × α)) (k k' : κ) (v : α)
    (h : k ≠ k') : mapGet (mapSet m k v) k' = mapGet m k' := by
  induction m with
  | nil => simp [mapSet, mapGet, h]
  | cons e rest ih =>
    obtain ⟨k0, v0⟩ := e
    by_cases h0 : k0 = k
    · subst h0; simp [mapSet, mapGet, h]
    · by_cases h1 : k0 = k'
      · subst h1; simp [mapSet, mapGet, h0]
      · simp [mapSet, mapGet, h0, h1, ih]

theorem mem_mapSet {κ α : Type} [DecidableEq κ] (m : List (κ × α)) (k : κ) (v : α)
    (e : κ × α) (h : e ∈ mapSet m k v) : e = (k, v) ∨ e ∈ m := by
  induction m with
  | nil => simpa [mapSet] using h
  | cons e0 rest ih =>
    obtain ⟨k0, v0⟩ := e0
    by_cases h0 : k0 = k
    · simp only [mapSet, h0, if_true, List.mem_cons] at h
      rcases h with h | h
      · exact Or.inl h
      · exact Or.inr (List.mem_cons_of_mem _ h)
    · simp only [mapSet, h0, if_false, List.mem_cons] at h
      rcases h with h | h
      · exact Or.inr (h ▸ List.mem_cons_self _ _)
      · rcases ih h with h | h
        · exact Or.inl h
        · exact Or.inr (List.mem_cons_of_mem _ h)

theorem length_mapSet {κ α : Type} [DecidableEq κ] (m : List (κ × α)) (k : κ) (v : α) :
    (mapSet m k v).length = if (mapGet m k).isSome then m.length else m.length + 1 := by
  induction m with
  | nil => simp [mapSet, mapGet]
  | cons e rest ih =>
    obtain ⟨k0, v0⟩ := e
    by_cases h0 : k0 = k
    · simp [mapSet, mapGet, h0]
    · simp only [mapSet, mapGet, h0, if_false, List.length_cons, ih]
      split <;> rfl

theorem commitCK_Attributes (kb : Keybag) (c : Option ClassKey) :
    (commitCK kb c).Attributes = kb.Attributes := by
  unfold commitCK
  split
  · split <;> rfl
  · rfl

theorem commitCK_UUID (kb : Keybag) (c : Option ClassKey) :
    (commitCK kb c).UUID = kb.UUID := by
  unfold commitCK
  split
  · split <;> rfl
  · rfl

theorem commitCK_Wrap (kb : Keybag) (c : Option ClassKey) :
    (commitCK kb c).Wrap = kb.Wrap := by
  unfold commitCK
  split
  · split <;> rfl
  · rfl

theorem commitCK_ClassKeys (kb : Keybag) (c : Option ClassKey) :
    (commitCK kb c).ClassKeys = commitBlocks kb.ClassKeys c.toList := by
  unfold commitCK commitBlocks
  cases c with
  | none => rfl
  | some ck =>
    simp only [Option.toList, List.foldl_cons, List.foldl_nil]
    split <;> rfl

/-- What the `switch` does to `Attributes`: a record with a tag the parser handles
itself leaves them alone, any other record is stored under its tag. -/
theorem applyRecord_Attributes (st st' : ParseState) (tag val : List Byte)
    (h : applyRecord st tag val = .ok st') :
    st'.kb.Attributes =
      if tag ∈ recognizedTags then st.kb.Attributes else mapSet st.kb.Attributes tag val := by
  unfold applyRecord at h
  simp only [recognizedTags, List.mem_cons, List.mem_singleton, List.not_mem_nil, or_false]
  split_ifs at h with h1 h2 h3 h4 h5 h6 h7 h8 h9 <;>
    (try split at h) <;>
    first
    | exact Outcome.noConfusion h
    | (injection h with h; subst h; simp_all [commitCK_Attributes])

/-- What the `switch` does on a record that is not a `UUID` record. -/
theorem applyRecord_not_UUID (st st' : ParseState) (tag val : List Byte)
    (htag : tag ≠ tagUUID) (h : applyRecord st tag val = .ok st') :
    st'.kb.UUID = st.kb.UUID ∧ st'.kb.ClassKeys = st.kb.ClassKeys ∧
    st'.currentCK = st.currentCK.map (fun ck => overlay ck [⟨tag, val⟩]) ∧
    st'.kb.Wrap = (if st.currentCK = none then lastUint32 [⟨tag, val⟩] tagWRAP st.kb.Wrap
      else st.kb.Wrap) := by
  unfold applyRecord at h
  split_ifs at h with h1 h2 h3 h4 h5 h6 h7 h8 h9 <;>
    (try split at h) <;>
    first
    | exact Outcome.noConfusion h
    | exact absurd h2 htag
    | (injection h with h; subst h
       simp_all [overlay, lastUint32, lastPayload, tagTYPE_ne_tagUUID, tagTYPE_ne_tagWRAP, tagTYPE_ne_tagCLAS, tagTYPE_ne_tagWPKY, tagTYPE_ne_tagKTYP, tagTYPE_ne_tagPBKY, tagUUID_ne_tagTYPE, tagUUID_ne_tagWRAP, tagUUID_ne_tagCLAS, tagUUID_ne_tagWPKY, tagUUID_ne_tagKTYP, tagUUID_ne_tagPBKY, tagWRAP_ne_tagTYPE, tagWRAP_ne_tagUUID, tagWRAP_ne_tagCLAS, tagWRAP_ne_tagWPKY, tagWRAP_ne_tagKTYP, tagWRAP_ne_tagPBKY, tagCLAS_ne_tagTYPE, tagCLAS_ne_tagUUID, tagCLAS_ne_tagWRAP, tagCLAS_ne_tagWPKY, tagCLAS_ne_tagKTYP, tagCLAS_ne_tagPBKY, tagWPKY_ne_tagTYPE, tagWPKY_ne_tagUUID, tagWPKY_ne_tagWRAP, tagWPKY_ne_tagCLAS, tagWPKY_ne_tagKTYP, tagWPKY_ne_tagPBKY, tagKTYP_ne_tagTYPE, tagKTYP_ne_tagUUID, tagKTYP_ne_tagWRAP, tagKTYP_ne_tagCLAS, tagKTYP_ne_tagWPKY, tagKTYP_ne_tagPBKY, tagPBKY_ne_tagTYPE, tagPBKY_ne_tagUUID, tagPBKY_ne_tagWRAP, tagPBKY_ne_tagCLAS, tagPBKY_ne_tagWPKY, tagPBKY_ne_tagKTYP])

/-- What the `switch` does on a `UUID` record. -/
theorem applyRecord_UUID (st st' : ParseState) (val : List Byte)
    (h : applyRecord st tagUUID val = .ok st') :
    st' = match st.kb.UUID with
      | none => { st with kb := { st.kb with UUID := some val } }
      | some _ => { kb := commitCK st.kb st.currentCK, currentCK := some (ClassKey.new val) } := by
  unfold applyRecord at h
  simp only [tagUUID_ne_tagTYPE, if_false, if_true] at h
  split at h <;> (injection h with h; subst h; simp_all)

/-! ## The class-key state machine -/

theorem overlay_nil (ck : ClassKey) : overlay ck [] = ck := rfl

theorem overlay_cons (ck : ClassKey) (r : Record) (body : List Record) :
    overlay (overlay ck [r]) body = overlay ck (r :: body) := by
  simp only [overlay, lastUint32, lastPayload]
  congr 1
  · cases lastPayload body tagCLAS <;> rfl
  · cases lastPayload body tagWRAP <;> rfl
  · cases lastPayload body tagWPKY <;> simp
  · cases lastPayload body tagKTYP <;> rfl

theorem lastUint32_cons (r : Record) (rs : List Record) (tag : List Byte) (d : Nat) :
    lastUint32 rs tag (lastUint32 [r] tag d) = lastUint32 (r :: rs) tag d := by
  simp only [lastUint32, lastPayload]
  cases lastPayload rs tag <;> rfl

theorem untilUUID_cons_UUID (r : Record) (rs : List Record) (h : r.tag = tagUUID) :
    untilUUID (r :: rs) = [] := by
  simp [untilUUID, h]

theorem untilUUID_cons_other (r : Record) (rs : List Record) (h : r.tag ≠ tagUUID) :
    untilUUID (r :: rs) = r :: untilUUID rs := by
  simp [untilUUID, h]

theorem uuidBlocks_cons_UUID (r : Record) (rs : List Record) (h : r.tag = tagUUID) :
    uuidBlocks (r :: rs) = (r.val, untilUUID rs) :: uuidBlocks rs := by
  simp [uuidBlocks, h]

theorem uuidBlocks_cons_other (r : Record) (rs : List Record) (h : r.tag ≠ tagUUID) :
    uuidBlocks (r :: rs) = uuidBlocks rs := by
  simp [uuidBlocks, h]

theorem applyRecords_cons_ok (st st' : ParseState) (r : Record) (rs : List Record)
    (h : applyRecords st (r :: rs) = .ok st') :
    ∃ st1, applyRecord st r.tag r.val = .ok st1 ∧ applyRecords st1 rs = .ok st' := by
  simp only [applyRecords] at h
  cases h1 : applyRecord st r.tag r.val with
  | ok st1 => rw [h1] at h; exact ⟨st1, rfl, h⟩
  | error e => rw [h1] at h; exact Outcome.noConfusion h
  | indexOutOfRange => rw [h1] at h; exact Outcome.noConfusion h
  | outOfFuel => rw [h1] at h; exact Outcome.noConfusion h

/-- Inside a class-key block: the blocks still to come are committed after the one
in progress. -/
theorem applyRecords_in_block (rs : List Record) (st st' : ParseState) (ck : ClassKey)
    (u : List Byte) (hck : st.currentCK = some ck) (hu : st.kb.UUID = some u)
    (h : applyRecords st rs = .ok st') :
    (commitCK st'.kb st'.currentCK).ClassKeys =
      commitBlocks st.kb.ClassKeys
        (overlay ck (untilUUID rs) :: (uuidBlocks rs).map blockClassKey) ∧
    (commitCK st'.kb st'.currentCK).Wrap = st.kb.Wrap ∧
    (commitCK st'.kb st'.currentCK).UUID = st.kb.UUID := by
  induction rs generalizing st ck u with
  | nil =>
    simp only [applyRecords] at h
    injection h with h
    subst h
    refine ⟨?_, commitCK_Wrap _ _, commitCK_UUID _ _⟩
    rw [commitCK_ClassKeys, hck]
    rfl
  | cons r rs ih =>
    obtain ⟨st1, h1, h2⟩ := applyRecords_cons_ok _ _ _ _ h
    by_cases hr : r.tag = tagUUID
    · rw [hr] at h1
      have e := applyRecord_UUID _ _ _ h1
      simp only [hu] at e
      have hck1 : st1.currentCK = some (ClassKey.new r.val) := by rw [e]
      have hu1 : st1.kb.UUID = some u := by rw [e]; simp only [commitCK_UUID, hu]
      obtain ⟨a, b, c⟩ := ih st1 (ClassKey.new r.val) u hck1 hu1 h2
      refine ⟨?_, ?_, ?_⟩
      · rw [a, untilUUID_cons_UUID _ _ hr, uuidBlocks_cons_UUID _ _ hr, e]
        simp only [commitCK_ClassKeys, hck]
        rfl
      · rw [b, e]; simp only [commitCK_Wrap]
      · rw [c, e]; simp only [commitCK_UUID]
    · obtain ⟨e1, e2, e3, e4⟩ := applyRecord_not_UUID _ _ _ _ hr h1
      have hck1 : st1.currentCK = some (overlay ck [r]) := by rw [e3, hck]; rfl
      obtain ⟨a, b, c⟩ := ih st1 (overlay ck [r]) u hck1 (by rw [e1, hu]) h2
      refine ⟨?_, ?_, ?_⟩
      · rw [a, untilUUID_cons_other _ _ hr, uuidBlocks_cons_other _ _ hr, e2, overlay_cons]
      · rw [b, e4, hck]; simp
      · rw [c, e1]

/-- After the keybag's own `UUID` record and before the next one. -/
theorem applyRecords_top_level (rs : List Record) (st st' : ParseState) (u : List Byte)
    (hck : st.currentCK = none) (hu : st.kb.UUID = some u)
    (h : applyRecords st rs = .ok st') :
    (commitCK st'.kb st'.currentCK).ClassKeys =
      commitBlocks st.kb.ClassKeys ((uuidBlocks rs).map blockClassKey) ∧
    (commitCK st'.kb st'.currentCK).Wrap = lastUint32 (untilUUID rs) tagWRAP st.kb.Wrap ∧
    (commitCK st'.kb st'.currentCK).UUID = st.kb.UUID := by
  induction rs generalizing st with
  | nil =>
    simp only [applyRecords] at h
    injection h with h
    subst h
    refine ⟨?_, commitCK_Wrap _ _, commitCK_UUID _ _⟩
    rw [commitCK_ClassKeys, hck]
    rfl
  | cons r rs ih =>
    obtain ⟨st1, h1, h2⟩ := applyRecords_cons_ok _ _ _ _ h
    by_cases hr : r.tag = tagUUID
    · rw [hr] at h1
      have e := applyRecord_UUID _ _ _ h1
      simp only [hu] at e
      have hck1 : st1.currentCK = some (ClassKey.new r.val) := by rw [e]
      have hu1 : st1.kb.UUID = some u := by rw [e]; simp only [commitCK_UUID, hu]
      obtain ⟨a, b, c⟩ := applyRecords_in_block rs st1 st' (ClassKey.new r.val) u hck1 hu1 h2
      refine ⟨?_, ?_, ?_⟩
      · rw [a, uuidBlocks_cons_UUID _ _ hr, e]
        simp only [commitCK_ClassKeys, hck]
        rfl
      · rw [b, e, untilUUID_cons_UUID _ _ hr]; simp only [commitCK_Wrap]; rfl
      · rw [c, e]; simp only [commitCK_UUID]
    · obtain ⟨e1, e2, e3, e4⟩ := applyRecord_not_UUID _ _ _ _ hr h1
      have hck1 : st1.currentCK = none := by rw [e3, hck]; rfl
      obtain ⟨a, b, c⟩ := ih st1 hck1 (by rw [e1, hu]) h2
      refine ⟨?_, ?_, ?_⟩
      · rw [a, uuidBlocks_cons_other _ _ hr, e2]
      · rw [b, e4, untilUUID_cons_other _ _ hr]
        simp only [hck, if_true]
        exact lastUint32_cons _ _ _ _
      · rw [c, e1]

/-- From the start of the stream: the first `UUID` record is the keybag's, every
later one opens a class-key block. -/
theorem applyRecords_from_start (rs : List Record) (st st' : ParseState)
    (hck : st.currentCK = none) (hu : st.kb.UUID = none)
    (h : applyRecords st rs = .ok st') :
    (commitCK st'.kb st'.currentCK).ClassKeys =
      commitBlocks st.kb.ClassKeys ((classKeyBlocks rs).map blockClassKey) ∧
    (commitCK st'.kb st'.currentCK).Wrap = lastUint32 (topLevelRecords rs) tagWRAP st.kb.Wrap ∧
    (commitCK st'.kb st'.currentCK).UUID =
      (rs.find? (fun r => decide (r.tag = tagUUID))).map (fun r => r.val) := by
  induction rs generalizing st with
  | nil =>
    simp only [applyRecords] at h
    injection h with h
    subst h
    refine ⟨?_, commitCK_Wrap _ _, ?_⟩
    · rw [commitCK_ClassKeys, hck]; rfl
    · rw [commitCK_UUID, hu]; rfl
  | cons r rs ih =>
    obtain ⟨st1, h1, h2⟩ := applyRecords_cons_ok _ _ _ _ h
    by_cases hr : r.tag = tagUUID
    · rw [hr] at h1
      have e := applyRecord_UUID _ _ _ h1
      simp only [hu] at e
      have hck1 : st1.currentCK = none := by rw [e]; exact hck
      have hu1 : st1.kb.UUID = some r.val := by rw [e]
      obtain ⟨a, b, c⟩ := applyRecords_top_level rs st1 st' r.val hck1 hu1 h2
      refine ⟨?_, ?_, ?_⟩
      · rw [a, e]
        simp only [classKeyBlocks, uuidBlocks_cons_UUID _ _ hr, List.drop_succ_cons,
          List.drop_zero]
      · rw [b, e]
        simp only [topLevelRecords, untilUUID_cons_UUID _ _ hr, uuidBlocks_cons_UUID _ _ hr,
          List.head?_cons, Option.map_some', Option.getD_some, List.nil_append]
      · rw [c, hu1]; simp [hr]
    · obtain ⟨e1, e2, e3, e4⟩ := applyRecord_not_UUID _ _ _ _ hr h1
      have hck1 : st1.currentCK = none := by rw [e3, hck]; rfl
      obtain ⟨a, b, c⟩ := ih st1 hck1 (by rw [e1, hu]) h2
      refine ⟨?_, ?_, ?_⟩
      · rw [a, e2]
        simp only [classKeyBlocks, uuidBlocks_cons_other _ _ hr]
      · rw [b, e4]
        simp only [hck, if_true, topLevelRecords, untilUUID_cons_other _ _ hr,
          uuidBlocks_cons_other _ _ hr, List.cons_append]
        exact lastUint32_cons _ _ _ _
      · rw [c]; simp [hr]

/-! ## The class-key table -/

theorem commitBlocks_cons (m : List (Nat × ClassKey)) (c : ClassKey) (cs : List ClassKey) :
    commitBlocks m (c :: cs) =
      commitBlocks (if c.CLAS ≠ 0 then mapSet m c.CLAS c else m) cs := rfl

theorem length_mapSet_le {κ α : Type} [DecidableEq κ] (m : List (κ × α)) (k : κ) (v : α) :
    (mapSet m k v).length ≤ m.length + 1 := by
  rw [length_mapSet]; split <;> omega

theorem commitBlocks_length_le (cks : List ClassKey) (m : List (Nat × ClassKey)) :
    (commitBlocks m cks).length ≤ m.length + cks.length := by
  induction cks generalizing m with
  | nil => simp [commitBlocks]
  | cons c cs ih =>
    rw [commitBlocks_cons]
    refine le_trans (ih _) ?_
    simp only [List.length_cons]
    split
    · have := length_mapSet_le m c.CLAS c; omega
    · omega

theorem commitBlocks_mem (cks : List ClassKey) (m : List (Nat × ClassKey)) (e : Nat × ClassKey)
    (h : e ∈ commitBlocks m cks) :
    e ∈ m ∨ ∃ ck ∈ cks, ck.CLAS ≠ 0 ∧ e = (ck.CLAS, ck) := by
  induction cks generalizing m with
  | nil => exact Or.inl h
  | cons c cs ih =>
    rw [commitBlocks_cons] at h
    rcases ih _ h with h | ⟨ck, hck, hnz, he⟩
    · split at h
      · rename_i hc
        rcases mem_mapSet _ _ _ _ h with h | h
        · exact Or.inr ⟨c, List.mem_cons_self _ _, hc, h⟩
        · exact Or.inl h
      · exact Or.inl h
    · exact Or.inr ⟨ck, List.mem_cons_of_mem _ hck, hnz, he⟩

theorem commitBlocks_get_other (cks : List ClassKey) (m : List (Nat × ClassKey)) (k : Nat)
    (h : ∀ ck ∈ cks, ck.CLAS ≠ k) : mapGet (commitBlocks m cks) k = mapGet m k := by
  induction cks generalizing m with
  | nil => rfl
  | cons c cs ih =>
    rw [commitBlocks_cons, ih _ (fun ck hck => h ck (List.mem_cons_of_mem _ hck))]
    split
    · exact mapGet_mapSet_other _ _ _ _ (h c (List.mem_cons_self _ _))
    · rfl

/-- Blocks with pairwise distinct non-zero `CLAS` each yield exactly one entry. -/
theorem commitBlocks_distinct (cks : List ClassKey) (m : List (Nat × ClassKey))
    (hnz : ∀ ck ∈ cks, ck.CLAS ≠ 0) (hnd : (cks.map (fun ck => ck.CLAS)).Nodup)
    (hfresh : ∀ ck ∈ cks, mapGet m ck.CLAS = none) :
    (commitBlocks m cks).length = m.length + cks.length ∧
    ∀ ck ∈ cks, mapGet (commitBlocks m cks) ck.CLAS = some ck := by
  induction cks generalizing m with
  | nil => simp [commitBlocks]
  | cons c cs ih =>
    have hc0 : c.CLAS ≠ 0 := hnz c (List.mem_cons_self _ _)
    simp only [List.map_cons, List.nodup_cons, List.mem_map, not_exists, not_and] at hnd
    have hother : ∀ ck ∈ cs, ck.CLAS ≠ c.CLAS := fun ck hck => hnd.1 ck hck
    rw [commitBlocks_cons, if_pos hc0]
    obtain ⟨hl, hg⟩ := ih (mapSet m c.CLAS c)
      (fun ck hck => hnz ck (List.mem_cons_of_mem _ hck)) hnd.2
      (fun ck hck => by
        rw [mapGet_mapSet_other _ _ _ _ (Ne.symm (hother ck hck))]
        exact hfresh ck (List.mem_cons_of_mem _ hck))
    constructor
    · rw [hl, length_mapSet, hfresh c (List.mem_cons_self _ _)]
      simp only [Option.isSome_none, List.length_cons]
      simp only [Bool.false_eq_true, if_false]
      omega
    · intro ck hck
      rcases List.mem_cons.mp hck with rfl | hck
      · rw [commitBlocks_get_other _ _ _ hother]
        exact mapGet_mapSet_same _ _ _
      · exact hg ck hck

theorem uuidBlocks_length (rs : List Record) :
    (uuidBlocks rs).length = (rs.filter (fun r => decide (r.tag = tagUUID))).length := by
  induction rs with
  | nil => rfl
  | cons r rs ih =>
    by_cases hr : r.tag = tagUUID
    · simp [uuidBlocks, hr, ih]
    · simp [uuidBlocks, hr, ih]

/-- The keybag `ParseKeybag` returns for a stream of whole records, field by field. -/
theorem ParseKeybag_encodeTLV_ok (rs : List Record) (kb : Keybag)
    (hwf : ∀ r ∈ rs, r.WellFormed) (h : ParseKeybag (encodeTLV rs) = .ok kb) :
    kb.ClassKeys = commitBlocks [] ((classKeyBlocks rs).map blockClassKey) ∧
    kb.Wrap = lastUint32 (topLevelRecords rs) tagWRAP 0 ∧
    kb.UUID = (rs.find? (fun r => decide (r.tag = tagUUID))).map (fun r => r.val) := by
  rw [ParseKeybag_encodeTLV rs hwf] at h
  split at h
  · rename_i st hst
    injection h with h
    subst h
    exact applyRecords_from_start rs _ st rfl rfl hst
  · exact Outcome.noConfusion h
  · exact Outcome.noConfusion h
  · exact Outcome.noConfusion h

/-! ## C5: class keys are segmented by `UUID` records -/

set_option maxRecDepth 100000

/-- C5. For every accepted stream of records, `kb.UUID` is the payload of the first
`UUID` record and every later `UUID` record opens a class-key block; `ClassKeys` has
at most (number of `UUID` records - 1) entries; a `WRAP` record before the second
`UUID` sets the keybag-level `Wrap`; and when the blocks carry pairwise distinct
non-zero `CLAS` values each block yields exactly one entry, stored under its `CLAS`,
whose `UUID` is the block's `UUID` payload and whose `WRAP`, `WPKY` and `KTYP` are
the last such records inside the block. -/
theorem ParseKeybag_segments_by_UUID (rs : List Record) (kb : Keybag)
    (hwf : ∀ r ∈ rs, r.WellFormed) (h : ParseKeybag (encodeTLV rs) = .ok kb) :
    kb.UUID = (rs.find? (fun r => decide (r.tag = tagUUID))).map (fun r => r.val) ∧
    kb.ClassKeys.length ≤ (rs.filter (fun r => decide (r.tag = tagUUID))).length - 1 ∧
    kb.Wrap = lastUint32 (topLevelRecords rs) tagWRAP 0 ∧
    ((∀ b ∈ classKeyBlocks rs, lastUint32 b.2 tagCLAS 0 ≠ 0) →
      ((classKeyBlocks rs).map (fun b => lastUint32 b.2 tagCLAS 0)).Nodup →
      kb.ClassKeys.length = (classKeyBlocks rs).length ∧
      ∀ b ∈ classKeyBlocks rs, ∃ ck,
        mapGet kb.ClassKeys (lastUint32 b.2 tagCLAS 0) = some ck ∧
        ck.UUID = b.1 ∧
        ck.CLAS = lastUint32 b.2 tagCLAS 0 ∧
        ck.WRAP = lastUint32 b.2 tagWRAP 0 ∧
        ck.WPKY = (lastPayload b.2 tagWPKY).getD [] ∧
        ck.KTYP = lastUint32 b.2 tagKTYP 0 ∧
        ck.KEY = none) := by
  obtain ⟨hck, hwrap, huuid⟩ := ParseKeybag_encodeTLV_ok rs kb hwf h
  refine ⟨huuid, ?_, hwrap, ?_⟩
  · rw [hck, ← uuidBlocks_length]
    have := commitBlocks_length_le ((classKeyBlocks rs).map blockClassKey) []
    simp only [List.length_nil, List.length_map, classKeyBlocks, List.length_drop,
      Nat.zero_add] at this
    exact this
  · intro hnz hnd
    have h1 : ∀ ck ∈ (classKeyBlocks rs).map blockClassKey, ck.CLAS ≠ 0 := by
      intro ck hmem
      obtain ⟨b, hb, rfl⟩ := List.mem_map.mp hmem
      exact hnz b hb
    have h2 : (((classKeyBlocks rs).map blockClassKey).map (fun ck => ck.CLAS)).Nodup := by
      rw [List.map_map]; exact hnd
    obtain ⟨hl, hg⟩ := commitBlocks_distinct _ [] h1 h2 (fun _ _ => rfl)
    rw [hck]
    refine ⟨by simpa using hl, ?_⟩
    intro b hb
    exact ⟨blockClassKey b, hg _ (List.mem_map_of_mem _ hb), rfl, rfl, rfl, rfl, rfl, rfl⟩

/-- C5 at a concrete stream with two class-key blocks. -/
theorem ParseKeybag_segments_by_UUID_witness :
    (∀ r ∈ twoClassKeys, r.WellFormed) ∧
    ParseKeybag (encodeTLV twoClassKeys) = .ok twoClassKeysKeybag ∧
    twoClassKeysKeybag.ClassKeys.length = (classKeyBlocks twoClassKeys).length ∧
    mapGet twoClassKeysKeybag.ClassKeys 3
      = some { CLAS := 3, WRAP := 2, WPKY := [2, 2], KTYP := 1, UUID := [7], KEY := none } :=
  have hwf : ∀ r ∈ twoClassKeys, r.WellFormed := by
    intro r hr
    simp only [twoClassKeys, List.mem_cons, List.mem_singleton, List.not_mem_nil,
      or_false] at hr
    rcases hr with rfl | rfl | rfl | rfl | rfl | rfl | rfl | rfl | rfl | rfl | rfl | rfl | rfl <;>
      exact ⟨by decide, by norm_num⟩
  ⟨hwf, by decide,
    ((ParseKeybag_segments_by_UUID twoClassKeys twoClassKeysKeybag hwf (by decide)).2.2.2
      (by decide) (by decide)).1,
    by decide⟩

/-! ## C6: the class-key table invariant -/

/-- C6. For every blob `ParseKeybag` accepts, every entry `(k, ck)` of `ClassKeys`
has `ck.CLAS = k` and `k ≠ 0`; and the table is the class-key blocks of the stream
committed in order, a block whose `CLAS` is zero (or never set) being discarded, the
last block (in progress at EOF) under the same rule as the others. -/
theorem ClassKeys_keyed_by_nonzero_CLAS (blob : List Byte) (kb : Keybag)
    (h : ParseKeybag blob = .ok kb) :
    (∀ e ∈ kb.ClassKeys, e.2.CLAS = e.1 ∧ e.1 ≠ 0) ∧
    (∀ rs : List Record, (∀ r ∈ rs, r.WellFormed) → blob = encodeTLV rs →
      kb.ClassKeys = commitBlocks [] ((classKeyBlocks rs).map blockClassKey)) := by
  have hall : ∀ rs : List Record, (∀ r ∈ rs, r.WellFormed) → blob = encodeTLV rs →
      kb.ClassKeys = commitBlocks [] ((classKeyBlocks rs).map blockClassKey) := by
    intro rs hwf hrs
    subst hrs
    exact (ParseKeybag_encodeTLV_ok rs kb hwf h).1
  refine ⟨?_, hall⟩
  obtain ⟨rs, hwf, hrs, _⟩ := ParseKeybag_ok_decode blob kb h
  intro e he
  rw [hall rs hwf hrs] at he
  rcases commitBlocks_mem _ _ _ he with he | ⟨ck, _, hnz, rfl⟩
  · simp at he
  · exact ⟨rfl, hnz⟩

/-- C6 at a concrete stream: the block with `UUID` 08 never gets a `CLAS` and is
discarded, the last block is committed at EOF. -/
theorem ClassKeys_keyed_by_nonzero_CLAS_witness :
    ParseKeybag (encodeTLV discardedBlock) = .ok discardedBlockKeybag ∧
    ∀ e ∈ discardedBlockKeybag.ClassKeys, e.2.CLAS = e.1 ∧ e.1 ≠ 0 :=
  ⟨by decide,
    (ClassKeys_keyed_by_nonzero_CLAS (encodeTLV discardedBlock) discardedBlockKeybag
      (by decide)).1⟩

/-! ## C7 and C8: attributes -/

theorem applyRecords_Attributes (rs : List Record) (st st' : ParseState) (tag : List Byte)
    (h : applyRecords st rs = .ok st') :
    mapGet st'.kb.Attributes tag =
      if tag ∈ recognizedTags then mapGet st.kb.Attributes tag
      else match lastPayload rs tag with
        | some v => some v
        | none => mapGet st.kb.Attributes tag := by
  induction rs generalizing st with
  | nil =>
    simp only [applyRecords] at h
    injection h with h
    subst h
    simp [lastPayload]
  | cons r rs ih =>
    obtain ⟨st1, h1, h2⟩ := applyRecords_cons_ok _ _ _ _ h
    rw [ih st1 h2, applyRecord_Attributes _ _ _ _ h1]
    by_cases ht : tag ∈ recognizedTags
    · simp only [ht, if_true]
      by_cases hr : r.tag ∈ recognizedTags
      · simp only [hr, if_true]
      · simp only [hr, if_false]
        exact mapGet_mapSet_other _ _ _ _ (fun e => hr (e ▸ ht))
    · simp only [ht, if_false, lastPayload]
      cases lastPayload rs tag with
      | some v => rfl
      | none =>
        simp only
        by_cases hrt : r.tag = tag
        · subst hrt
          simp only [ht, if_false, if_true, mapGet_mapSet_same]
        · simp only [hrt, if_false]
          by_cases hr : r.tag ∈ recognizedTags
          · simp only [hr, if_true]
          · simp only [hr, if_false]
            exact mapGet_mapSet_other _ _ _ _ hrt

/-- C7. Attributes are last-write-wins: for every stream of records `ParseKeybag`
accepts and every tag that is not one of TYPE, UUID, WRAP, CLAS, WPKY, KTYP, PBKY,
`Attributes[tag]` is the payload of the last record carrying that tag, wherever it
stands in the stream, and a tag with no record is absent. -/
theorem Attributes_last_write_wins (rs : List Record) (kb : Keybag)
    (hwf : ∀ r ∈ rs, r.WellFormed) (h : ParseKeybag (encodeTLV rs) = .ok kb)
    (tag : List Byte) (htag : tag ∉ recognizedTags) :
    mapGet kb.Attributes tag = lastPayload rs tag := by
  rw [ParseKeybag_encodeTLV rs hwf] at h
  split at h
  · rename_i st hst
    injection h with h
    subst h
    rw [commitCK_Attributes, applyRecords_Attributes rs _ st tag hst]
    simp only [htag, if_false]
    cases lastPayload rs tag <;> rfl
  · exact Outcome.noConfusion h
  · exact Outcome.noConfusion h
  · exact Outcome.noConfusion h

/-- C7 at a concrete stream: `DPSL` occurs at top level and inside a class-key
block; the later payload wins. -/
theorem Attributes_last_write_wins_witness :
    ParseKeybag (encodeTLV twoClassKeys) = .ok twoClassKeysKeybag ∧
    tagDPSL ∉ recognizedTags ∧
    mapGet twoClassKeysKeybag.Attributes tagDPSL = some [6] :=
  ⟨by decide, by decide,
    (Attributes_last_write_wins twoClassKeys twoClassKeysKeybag
      (by
        intro r hr
        simp only [twoClassKeys, List.mem_cons, List.mem_singleton, List.not_mem_nil,
          or_false] at hr
        rcases hr with rfl | rfl | rfl | rfl | rfl | rfl | rfl | rfl | rfl | rfl | rfl | rfl |
          rfl <;> exact ⟨by decide, by norm_num⟩)
      (by decide) tagDPSL (by decide)).trans (by decide)⟩

/-- C8 as stated fails: a stream with one `PBKY` record is accepted and its payload
is not in `Attributes`. -/
theorem PBKY_payload_not_retained :
    ParseKeybag (encodeTLV [⟨tagPBKY, [1, 2, 3]⟩]) = .ok Keybag.new ∧
    mapGet Keybag.new.Attributes tagPBKY = none := by
  decide

/-- C8, amended. `ParseKeybag` reads a `PBKY` record and drops its payload: in every
keybag it returns, `Attributes` has no entry under any of the tags it handles itself
(TYPE, UUID, WRAP, CLAS, WPKY, KTYP, PBKY), `PBKY` among them. -/
theorem PBKY_never_in_Attributes (blob : List Byte) (kb : Keybag)
    (h : ParseKeybag blob = .ok kb) :
    mapGet kb.Attributes tagPBKY = none ∧
    ∀ tag ∈ recognizedTags, mapGet kb.Attributes tag = none := by
  have hall : ∀ tag ∈ recognizedTags, mapGet kb.Attributes tag = none := by
    intro tag htag
    obtain ⟨rs, _, _, st, hst, rfl⟩ := ParseKeybag_ok_decode blob kb h
    rw [commitCK_Attributes, applyRecords_Attributes rs _ st tag hst]
    simp only [htag, if_true]
    rfl
  exact ⟨hall tagPBKY (by decide), hall⟩

/-- C8, amended, at a concrete stream that carries a `PBKY` record. -/
theorem PBKY_never_in_Attributes_witness :
    ParseKeybag (encodeTLV publicKeyStream) = .ok publicKeyKeybag ∧
    mapGet publicKeyKeybag.Attributes tagPBKY = none :=
  ⟨by decide,
    (PBKY_never_in_Attributes (encodeTLV publicKeyStream) publicKeyKeybag (by decide)).1⟩

/-! ## C9: truncated streams -/

/-- The loop over whole records followed by any tail. -/
theorem parseLoop_encodeTLV_append (rs : List Record) (hwf : ∀ r ∈ rs, r.WellFormed)
    (tail : List Byte) (fuel : Nat) (st : ParseState) :
    parseLoop (fuel + rs.length) st (encodeTLV rs ++ tail) =
      match applyRecords st rs with
      | .ok st' => parseLoop fuel st' tail
      | .error e => .error e
      | .indexOutOfRange => .indexOutOfRange
      | .outOfFuel => .outOfFuel := by
  induction rs generalizing st with
  | nil => simp [encodeTLV, applyRecords]
  | cons r rs ih =>
    simp only [encodeTLV, applyRecords, List.length_cons, List.append_assoc]
    rw [← Nat.add_assoc, parseLoop_encodeRecord _ _ _ _ (hwf r (List.mem_cons_self _ _))]
    cases applyRecord st r.tag r.val with
    | ok st' => exact ih (fun x hx => hwf x (List.mem_cons_of_mem _ hx)) st'
    | error e => rfl
    | indexOutOfRange => rfl
    | outOfFuel => rfl

/-- Where the parser is right about truncation: when the records before the cut are
processed without abort, a blob that ends inside a header (1..7 bytes left) or
before its declared payload is complete is rejected with an error. -/
theorem ParseKeybag_truncated (rs : List Record) (hwf : ∀ r ∈ rs, r.WellFormed)
    (st : ParseState) (happ : applyRecords { kb := Keybag.new, currentCK := none } rs = .ok st)
    (tail : List Byte)
    (htrunc : (0 < tail.length ∧ tail.length < 8) ∨
      (8 ≤ tail.length ∧ tail.length - 8 < BigEndian.Uint32 ((tail.take 8).drop 4))) :
    ParseKeybag (encodeTLV rs ++ tail) = .error .readHeaderFailed ∨
    ParseKeybag (encodeTLV rs ++ tail) = .error (.readPayloadFailed ((tail.take 8).take 4)) := by
  have hlen : rs.length ≤ (encodeTLV rs ++ tail).length := by
    have := encodeTLV_length rs hwf
    rw [List.length_append]; omega
  obtain ⟨f, hf⟩ : ∃ f, (encodeTLV rs ++ tail).length + 1 = (f + 1) + rs.length :=
    ⟨(encodeTLV rs ++ tail).length - rs.length, by omega⟩
  unfold ParseKeybag
  rw [hf, parseLoop_encodeTLV_append rs hwf tail (f + 1), happ]
  simp only
  rw [parseLoop]
  rcases htrunc with ⟨h0, h8⟩ | ⟨h8, hp⟩
  · left
    have : ¬ tail.length = 0 := by omega
    simp only [this, h8, if_true, if_false]
  · right
    have h0 : ¬ tail.length = 0 := by omega
    have h8' : ¬ tail.length < 8 := by omega
    have hp' : (tail.drop 8).length < BigEndian.Uint32 ((tail.take 8).drop 4) := by
      rw [List.length_drop]; exact hp
    simp only [h0, h8', hp', if_true, if_false]

/-- C9 on the code: a blob that ends inside a header, three bytes after a `TYPE`
record of declared length 0.  The parser decodes the empty `TYPE` payload as a
big-endian `u32` before it reaches the truncated header and aborts with the runtime
panic instead of returning an error. -/
theorem ParseKeybag_truncated_after_short_TYPE :
    ParseKeybag (encodeTLV [⟨tagTYPE, []⟩] ++ [1, 2, 3]) = .indexOutOfRange := by
  decide

/-! ## C10: the length of an unlocked class key -/

/-- What `AesUnwrap` returns has `len(wrapped) - 8` bytes. -/
theorem AesUnwrap_ok_length (aes : AES) (kek wrapped out : List Byte)
    (h : AesUnwrap aes kek wrapped = .ok out) :
    out.length = wrapped.length - 8 ∧ 16 ≤ wrapped.length := by
  by_cases hc : wrapped.length < 16 ∨ wrapped.length % 8 ≠ 0
  · simp only [AesUnwrap, if_pos hc] at h
    exact Except.noConfusion h
  · by_cases hkey : kek.length = 16 ∨ kek.length = 24 ∨ kek.length = 32
    · by_cases hA : (unwrapRegisters (aes.cipher kek) wrapped).1 ≠ integrityIV
      · simp only [AesUnwrap, if_neg hc, AES.NewCipher, if_pos hkey, if_pos hA] at h
        exact Except.noConfusion h
      · simp only [AesUnwrap, if_neg hc, AES.NewCipher, if_pos hkey, if_neg hA] at h
        injection h with h
        subst h
        have hok := unwrapRegisters_ok (aes.cipher kek) wrapped
        rw [flattenR_eq _ _ hok.2.1, flatten_length_eight _ (RegsOK_drop_one _ _ hok),
          List.length_drop, hok.2.1]
        omega
    · simp only [AesUnwrap, if_neg hc, AES.NewCipher, if_neg hkey] at h
      exact Except.noConfusion h

theorem unlockClassKeys_ok (aes : AES) (pk : List Byte) (l : List (Nat × ClassKey))
    (h : (unlockClassKeys aes pk l).2 = none) :
    ∀ e ∈ (unlockClassKeys aes pk l).1, e.2.WRAP &&& 2 ≠ 0 →
      ∃ key, e.2.KEY = some key ∧ AesUnwrap aes pk e.2.WPKY = .ok key := by
  induction l with
  | nil => intro e he; simp [unlockClassKeys] at he
  | cons e0 rest ih =>
    obtain ⟨k, ckey⟩ := e0
    by_cases hw : ckey.WRAP &&& 2 ≠ 0
    · cases hun : AesUnwrap aes pk ckey.WPKY with
      | error err =>
        simp only [unlockClassKeys, if_pos hw, hun] at h
        exact Option.noConfusion h
      | ok unwrapped =>
        simp only [unlockClassKeys, if_pos hw, hun] at h ⊢
        intro e he
        rcases List.mem_cons.mp he with rfl | he
        · intro _; exact ⟨unwrapped, rfl, hun⟩
        · exact ih h e he
    · simp only [unlockClassKeys, if_neg hw] at h ⊢
      intro e he
      rcases List.mem_cons.mp he with rfl | he
      · intro hw'; exact absurd hw' hw
      · exact ih h e he

/-- C10 as stated fails: a passcode-wrapped class key whose `WPKY` has 24 bytes is
unlocked without error and its `KEY` has 16 bytes. -/
theorem unlocked_KEY_of_16_bytes :
    (UnlockKeybagWithPasscode toyAES shortKeyKeybag (List.replicate 32 7)).2 = none ∧
    ((UnlockKeybagWithPasscode toyAES shortKeyKeybag (List.replicate 32 7)).1.ClassKeys.map
      (fun e => (e.1, e.2.WRAP &&& 2, e.2.KEY.map List.length))) = [(1, 2, some 16)] := by
  decide

/-- C10, amended. After `UnlockKeybagWithPasscode` returns without error, every class
key whose `(WRAP & 2) != 0` has a `KEY`, the RFC 3394 unwrap of its `WPKY`, of exactly
`len(WPKY) - 8` bytes: 32 bytes exactly when `WPKY` has 40. -/
theorem unlocked_KEY_length (aes : AES) (kb : Keybag) (passcodeKey : List Byte)
    (h : (UnlockKeybagWithPasscode aes kb passcodeKey).2 = none) :
    ∀ e ∈ (UnlockKeybagWithPasscode aes kb passcodeKey).1.ClassKeys, e.2.WRAP &&& 2 ≠ 0 →
      ∃ key, e.2.KEY = some key ∧ AesUnwrap aes passcodeKey e.2.WPKY = .ok key ∧
        key.length = e.2.WPKY.length - 8 ∧ (key.length = 32 ↔ e.2.WPKY.length = 40) := by
  intro e he hw
  obtain ⟨key, hkey, hun⟩ := unlockClassKeys_ok aes passcodeKey kb.ClassKeys h e he hw
  obtain ⟨hlen, h16⟩ := AesUnwrap_ok_length aes passcodeKey e.2.WPKY key hun
  exact ⟨key, hkey, hun, hlen, by omega⟩

/-- C10, amended, at a concrete keybag with a 40-byte `WPKY`. -/
theorem unlocked_KEY_length_witness :
    (UnlockKeybagWithPasscode toyAES fullKeyKeybag (List.replicate 32 7)).2 = none ∧
    ∀ e ∈ (UnlockKeybagWithPasscode toyAES fullKeyKeybag (List.replicate 32 7)).1.ClassKeys,
      e.2.WRAP &&& 2 ≠ 0 →
      ∃ key, e.2.KEY = some key ∧
        AesUnwrap toyAES (List.replicate 32 7) e.2.WPKY = .ok key ∧
        key.length = e.2.WPKY.length - 8 ∧ (key.length = 32 ↔ e.2.WPKY.length = 40) :=
  ⟨by decide, unlocked_KEY_length toyAES fullKeyKeybag (List.replicate 32 7) (by decide)⟩

/-! ## C11: `UnwrapKeyForClass` -/

/-- C11. `UnwrapKeyForClass(kb, classID, wrapped)` returns an error whenever
`classID` is not in `ClassKeys`, or that class key's `KEY` is unset, or
`len(wrapped) != 40`; when all three preconditions hold it returns exactly
`AesUnwrap(class KEY, wrapped)`, which on success is 32 bytes; and it never modifies
the keybag. -/
theorem UnwrapKeyForClass_contract (aes : AES) (kb : Keybag) (classID : Nat)
    (wrapped : List Byte) :
    (UnwrapKeyForClass aes kb classID wrapped).1 = kb ∧
    (mapGet kb.ClassKeys classID = none →
      (UnwrapKeyForClass aes kb classID wrapped).2 = .error (.unknownClassID classID)) ∧
    (∀ ck, mapGet kb.ClassKeys classID = some ck → ck.KEY = none →
      (UnwrapKeyForClass aes kb classID wrapped).2 = .error (.classHasNoKey classID)) ∧
    (wrapped.length ≠ 40 → ∃ e, (UnwrapKeyForClass aes kb classID wrapped).2 = .error e) ∧
    (∀ ck key, mapGet kb.ClassKeys classID = some ck → ck.KEY = some key →
      wrapped.length = 40 →
      (UnwrapKeyForClass aes kb classID wrapped).2 = AesUnwrap aes key wrapped ∧
      ∀ out, (UnwrapKeyForClass aes kb classID wrapped).2 = .ok out → out.length = 32) := by
  refine ⟨?_, ?_, ?_, ?_, ?_⟩
  · unfold UnwrapKeyForClass
    split
    · rfl
    · split
      · rfl
      · split <;> rfl
  · intro h
    simp only [UnwrapKeyForClass, h]
  · intro ck h hk
    simp only [UnwrapKeyForClass, h, hk]
  · intro hlen
    unfold UnwrapKeyForClass
    split
    · exact ⟨_, rfl⟩
    · split
      · exact ⟨_, rfl⟩
      · rw [if_pos hlen]
        exact ⟨_, rfl⟩
  · intro ck key h hk hlen
    have hres : (UnwrapKeyForClass aes kb classID wrapped).2 = AesUnwrap aes key wrapped := by
      simp only [UnwrapKeyForClass, h, hk, hlen, ne_eq, not_true_eq_false, if_false]
    refine ⟨hres, ?_⟩
    intro out hout
    rw [hres] at hout
    have := (AesUnwrap_ok_length aes key wrapped out hout).1
    omega

/-- C11 at a concrete input: an unlocked class key and a 40-byte wrapped key. -/
theorem UnwrapKeyForClass_contract_witness :
    mapGet unlockedKeybag.ClassKeys 1 = some unlockedClassKey ∧
    wrappedFileKey.length = 40 ∧
    (UnwrapKeyForClass toyAES unlockedKeybag 1 wrappedFileKey).2
      = AesUnwrap toyAES (List.replicate 32 7) wrappedFileKey ∧
    (UnwrapKeyForClass toyAES unlockedKeybag 1 wrappedFileKey).2
      = .ok ((List.range 32).map toByte) :=
  ⟨by decide, by decide,
    ((UnwrapKeyForClass_contract toyAES unlockedKeybag 1 wrappedFileKey).2.2.2.2
      unlockedClassKey (List.replicate 32 7) (by decide) rfl (by decide)).1,
    by decide⟩

/-! ## C12: `UnwrapManifestDBKey` -/

theorem UnwrapKeyForClass_lemma_length (aes : AES) (kb : Keybag) (classID : Nat)
    (wrapped : List Byte) (hlen : wrapped.length ≠ 40) :
    ∃ e, (UnwrapKeyForClass aes kb classID wrapped).2 = .error e := by
  unfold UnwrapKeyForClass
  split
  · exact ⟨_, rfl⟩
  · split
    · exact ⟨_, rfl⟩
    · rw [if_pos hlen]
      exact ⟨_, rfl⟩

theorem LittleEndian_Uint32_four (b0 b1 b2 b3 : Byte) (rest : List Byte) :
    LittleEndian.Uint32 (b0 :: b1 :: b2 :: b3 :: rest)
      = b0.val + 256 * b1.val + 65536 * b2.val + 16777216 * b3.val := by
  simp only [LittleEndian.Uint32, List.take, List.foldr]
  omega

/-- C12. `UnwrapManifestDBKey` reads the class id as the little-endian `u32` of
`ManifestKey[0..4]` and the wrapped key as `ManifestKey[4..]`: it succeeds only if
`ManifestKey` has exactly 44 bytes, and then its result is that of
`UnwrapKeyForClass(kb, u32_le(ManifestKey[0..4]), ManifestKey[4..44])` (an error
being wrapped); every `ManifestKey` of any other length yields an error, and no
length leads to an out-of-range access. -/
theorem UnwrapManifestDBKey_contract (aes : AES) (kb : Keybag) (mp : ManifestPlist) :
    UnwrapManifestDBKey aes kb mp ≠ .indexOutOfRange ∧
    UnwrapManifestDBKey aes kb mp ≠ .outOfFuel ∧
    (∀ key, UnwrapManifestDBKey aes kb mp = .ok key → mp.ManifestKey.length = 44) ∧
    (mp.ManifestKey.length ≠ 44 → ∃ e, UnwrapManifestDBKey aes kb mp = .error e) ∧
    (∀ (b0 b1 b2 b3 : Byte) (wrapped : List Byte),
      mp.ManifestKey = b0 :: b1 :: b2 :: b3 :: wrapped → wrapped.length = 40 →
      UnwrapManifestDBKey aes kb mp =
        match (UnwrapKeyForClass aes kb
            (b0.val + 256 * b1.val + 65536 * b2.val + 16777216 * b3.val) wrapped).2 with
        | .ok dbKey => .ok dbKey
        | .error err => .error (.unwrapManifestKeyFailed err)) := by
  have hok : ∀ key, UnwrapManifestDBKey aes kb mp = .ok key → mp.ManifestKey.length = 44 := by
    intro key h
    unfold UnwrapManifestDBKey at h
    split at h
    · exact Outcome.noConfusion h
    · rename_i h40
      split at h
      · exact Outcome.noConfusion h
      · simp only at h
        split at h
        · exact Outcome.noConfusion h
        · rename_i dbKey hun
          have hlen : (mp.ManifestKey.drop 4).length = 40 := by
            by_contra hne
            obtain ⟨e, he⟩ := (UnwrapKeyForClass_lemma_length aes kb _ _ hne)
            rw [he] at hun
            exact Except.noConfusion hun
          simp only [List.length_drop] at hlen
          omega
  refine ⟨?_, ?_, hok, ?_, ?_⟩
  · unfold UnwrapManifestDBKey
    split
    · simp
    · split
      · omega
      · simp only
        split <;> simp
  · unfold UnwrapManifestDBKey
    split
    · simp
    · split
      · simp
      · simp only
        split <;> simp
  · intro hne
    cases h : UnwrapManifestDBKey aes kb mp with
    | ok key => exact absurd (hok key h) hne
    | error e => exact ⟨e, rfl⟩
    | indexOutOfRange =>
      exfalso
      unfold UnwrapManifestDBKey at h
      split at h
      · exact Outcome.noConfusion h
      · split at h
        · omega
        · simp only at h
          split at h <;> exact Outcome.noConfusion h
    | outOfFuel =>
      exfalso
      unfold UnwrapManifestDBKey at h
      split at h
      · exact Outcome.noConfusion h
      · split at h
        · exact Outcome.noConfusion h
        · simp only at h
          split at h <;> exact Outcome.noConfusion h
  · intro b0 b1 b2 b3 wrapped hmk hlen
    have h40 : ¬ mp.ManifestKey.length < 0x28 := by rw [hmk]; simp [hlen]
    have h4 : ¬ mp.ManifestKey.length < 4 := by rw [hmk]; simp
    simp only [UnwrapManifestDBKey, if_neg h40, if_neg h4]
    rw [hmk]
    simp only [List.take, List.drop, LittleEndian_Uint32_four]
    split <;> rename_i h1 <;> simp only [h1]

/-- C12 at a concrete input: a 44-byte manifest key for class 1. -/
theorem UnwrapManifestDBKey_contract_witness :
    manifestKey44.length = 44 ∧
    UnwrapManifestDBKey toyAES unlockedKeybag ⟨[], manifestKey44⟩
      = .ok ((List.range 32).map toByte) ∧
    (∀ key, UnwrapManifestDBKey toyAES unlockedKeybag ⟨[], manifestKey44⟩ = .ok key →
      manifestKey44.length = 44) :=
  ⟨by decide, by decide,
    (UnwrapManifestDBKey_contract toyAES unlockedKeybag ⟨[], manifestKey44⟩).2.2.1⟩

/-! ## C13: `DerivePasscodeKey` -/

theorem BigEndian_Uint32_take (b : List Byte) :
    BigEndian.Uint32 (b.take 4) = BigEndian.Uint32 b := by
  simp [BigEndian.Uint32, List.take_take]

/-- C13. `DerivePasscodeKey(kb, passcode)` returns an error if and only if DPSL,
DPIC, SALT or ITER is absent from `Attributes`, or DPSL or SALT is empty, or DPIC or
ITER is shorter than 4 bytes; otherwise it returns the 32-byte value
PBKDF2-HMAC-SHA1(PBKDF2-HMAC-SHA256(passcode, DPSL, be32(DPIC[0..4]), 32), SALT,
be32(ITER[0..4]), 32), the iteration counts being those of the keybag. -/
theorem DerivePasscodeKey_contract (kdf : PBKDF2) (kb : Keybag) (passcode : List Byte) :
    ((∃ e, DerivePasscodeKey kdf kb passcode = .error e) ↔
      (¬ hasAttribute kb tagDPSL 1 ∨ ¬ hasAttribute kb tagDPIC 4 ∨
       ¬ hasAttribute kb tagSALT 1 ∨ ¬ hasAttribute kb tagITER 4)) ∧
    (∀ dpsl dpic salt iter : List Byte,
      mapGet kb.Attributes tagDPSL = some dpsl → mapGet kb.Attributes tagDPIC = some dpic →
      mapGet kb.Attributes tagSALT = some salt → mapGet kb.Attributes tagITER = some iter →
      1 ≤ dpsl.length → 4 ≤ dpic.length → 1 ≤ salt.length → 4 ≤ iter.length →
      DerivePasscodeKey kdf kb passcode =
        .ok (kdf.Key (kdf.Key passcode dpsl (BigEndian.Uint32 (dpic.take 4)) 32 .sha256)
          salt (BigEndian.Uint32 (iter.take 4)) 32 .sha1) ∧
      (kdf.Key (kdf.Key passcode dpsl (BigEndian.Uint32 (dpic.take 4)) 32 .sha256)
          salt (BigEndian.Uint32 (iter.take 4)) 32 .sha1).length = 32) := by
  have hval : ∀ dpsl dpic salt iter : List Byte,
      mapGet kb.Attributes tagDPSL = some dpsl → mapGet kb.Attributes tagDPIC = some dpic →
      mapGet kb.Attributes tagSALT = some salt → mapGet kb.Attributes tagITER = some iter →
      1 ≤ dpsl.length → 4 ≤ dpic.length → 1 ≤ salt.length → 4 ≤ iter.length →
      DerivePasscodeKey kdf kb passcode =
        .ok (kdf.Key (kdf.Key passcode dpsl (BigEndian.Uint32 (dpic.take 4)) 32 .sha256)
          salt (BigEndian.Uint32 (iter.take 4)) 32 .sha1) := by
    intro dpsl dpic salt iter h1 h2 h3 h4 l1 l2 l3 l4
    have hc : ¬ (dpsl.length = 0 ∨ dpic.length < 4 ∨ salt.length = 0 ∨ iter.length < 4) := by
      omega
    simp only [DerivePasscodeKey, h1, h2, h3, h4, if_neg hc, BigEndian_Uint32_take]
  constructor
  · constructor
    · rintro ⟨e, he⟩
      by_contra hcon
      simp only [not_or, not_not] at hcon
      obtain ⟨⟨dpsl, h1, l1⟩, ⟨dpic, h2, l2⟩, ⟨salt, h3, l3⟩, ⟨iter, h4, l4⟩⟩ := hcon
      rw [hval dpsl dpic salt iter h1 h2 h3 h4 l1 l2 l3 l4] at he
      exact Except.noConfusion he
    · intro hmiss
      cases h : DerivePasscodeKey kdf kb passcode with
      | error e => exact ⟨e, rfl⟩
      | ok key =>
        obtain ⟨a, b, c, d⟩ := DerivePasscodeKey_ok_required kdf kb passcode key h
        rcases hmiss with hm | hm | hm | hm
        · exact absurd a hm
        · exact absurd b hm
        · exact absurd c hm
        · exact absurd d hm
  · intro dpsl dpic salt iter h1 h2 h3 h4 l1 l2 l3 l4
    exact ⟨hval dpsl dpic salt iter h1 h2 h3 h4 l1 l2 l3 l4, kdf.Key_length _ _ _ _ _⟩

/-! ## C14: `AesDecryptCBC` -/

theorem xorBytes_length (a b : List Byte) : (xorBytes a b).length = min a.length b.length := by
  simp [xorBytes]

theorem cbcDecryptBlocks_length (block : Block) (n : Nat) (iv src : List Byte)
    (hiv : iv.length = 16) (hsrc : 16 * n ≤ src.length) :
    (cbcDecryptBlocks block n iv src).length = 16 * n := by
  induction n generalizing iv src with
  | zero => rfl
  | succ n ih =>
    simp only [cbcDecryptBlocks, List.length_append, xorBytes_length, block.Decrypt_length, hiv]
    rw [ih _ _ (by simp only [List.length_take]; omega)
      (by simp only [List.length_drop]; omega)]
    omega

theorem cipherBlock_drop (c : List Byte) (i : Nat) :
    cipherBlock (c.drop 16) i = cipherBlock c (i + 1) := by
  simp only [cipherBlock, List.drop_drop]
  congr 2
  omega

/-- The block-by-block recursion of `CryptBlocks` computes textbook CBC. -/
theorem cbcDecryptBlocks_eq (block : Block) (n : Nat) (iv src : List Byte) :
    cbcDecryptBlocks block n iv src =
      ((List.range n).map (fun i =>
        xorBytes (block.Decrypt (cipherBlock src i))
          (if i = 0 then iv else cipherBlock src (i - 1)))).flatten := by
  induction n generalizing iv src with
  | zero => rfl
  | succ n ih =>
    rw [cbcDecryptBlocks, ih, List.range_succ_eq_map]
    simp only [List.map_cons, List.flatten_cons, List.map_map, if_true]
    have h0 : cipherBlock src 0 = src.take 16 := by simp [cipherBlock]
    rw [h0]
    congr 2
    apply List.map_congr_left
    intro i _
    simp only [Function.comp, cipherBlock_drop, Nat.succ_eq_add_one, Nat.add_sub_cancel]
    have hne : ¬ (i + 1 = 0) := by omega
    rw [if_neg hne]
    by_cases hi : i = 0
    · subst hi; simp [h0]
    · rw [if_neg hi]
      congr 1
      have : i - 1 + 1 = i := by omega
      rw [this]

/-- Without the truncation the call would not return: `CryptBlocks` panics on a
source that ends in a partial block. -/
theorem CryptBlocks_partial_block (block : Block) (iv src : List Byte)
    (h : src.length % 16 ≠ 0) : CryptBlocks block iv src = .aborted .inputNotFullBlocks := by
  simp only [CryptBlocks, if_pos h]

/-- What `AesDecryptCBC` returns for a ciphertext of at least one block and a valid
key. -/
theorem AesDecryptCBC_ok (aes : AES) (c key : List Byte) (hc : 16 ≤ c.length)
    (hkey : key.length = 16 ∨ key.length = 24 ∨ key.length = 32) :
    AesDecryptCBC aes c key =
      .ok (cbcDecryptBlocks (aes.cipher key) ((c.take (c.length - c.length % 16)).length / 16)
        (List.replicate 16 0) (c.take (c.length - c.length % 16))) := by
  have h16 : ¬ c.length < 16 := by omega
  have hfull : ¬ (c.take (c.length - c.length % 16)).length % 16 ≠ 0 := by
    rw [List.length_take]
    omega
  simp only [AesDecryptCBC, if_neg h16, AES.NewCipher, if_pos hkey]
  by_cases hr : c.length % 16 ≠ 0
  · rw [if_pos hr]
    simp only [CryptBlocks, if_neg hfull]
  · rw [if_neg hr]
    have h0 : c.length % 16 = 0 := by omega
    simp only [CryptBlocks, h0, Nat.sub_zero, List.take_length, ne_eq, not_true_eq_false,
      if_false]

/-- C14. `AesDecryptCBC` discards the non-block tail: for every ciphertext `c` of at
least 16 bytes and every valid AES key, the result has length
`len(c) - (len(c) mod 16)`, is the zero-IV AES-CBC decryption of the first that-many
bytes of `c` with no padding removed, and is therefore unchanged by any change to the
trailing `len(c) mod 16` bytes. -/
theorem AesDecryptCBC_discards_tail (aes : AES) (c key : List Byte) (hc : 16 ≤ c.length)
    (hkey : key.length = 16 ∨ key.length = 24 ∨ key.length = 32) :
    ∃ out, AesDecryptCBC aes c key = .ok out ∧
      out.length = c.length - c.length % 16 ∧
      out = cbcDecryptZeroIV (aes.cipher key) (c.take (c.length - c.length % 16)) ∧
      ∀ c' : List Byte, c'.length = c.length →
        c'.take (c.length - c.length % 16) = c.take (c.length - c.length % 16) →
        AesDecryptCBC aes c' key = .ok out := by
  have hlen : (c.take (c.length - c.length % 16)).length = c.length - c.length % 16 := by
    rw [List.length_take]; omega
  refine ⟨_, AesDecryptCBC_ok aes c key hc hkey, ?_, ?_, ?_⟩
  · rw [cbcDecryptBlocks_length _ _ _ _ (by simp) (by rw [hlen]; omega), hlen]
    omega
  · unfold cbcDecryptZeroIV
    rw [cbcDecryptBlocks_eq]
  · intro c' hlen' htake
    rw [AesDecryptCBC_ok aes c' key (by omega) hkey, hlen', htake]

/-- C14 at a concrete input: 20 bytes, of which the last 4 are discarded. -/
theorem AesDecryptCBC_discards_tail_witness :
    16 ≤ ((List.range 20).map toByte).length ∧
    ∃ out, AesDecryptCBC toyAES ((List.range 20).map toByte) (List.replicate 32 7) = .ok out ∧
      out.length = ((List.range 20).map toByte).length - ((List.range 20).map toByte).length % 16 ∧
      out = cbcDecryptZeroIV (toyAES.cipher (List.replicate 32 7))
        (((List.range 20).map toByte).take
          (((List.range 20).map toByte).length - ((List.range 20).map toByte).length % 16)) ∧
      ∀ c' : List Byte, c'.length = ((List.range 20).map toByte).length →
        c'.take (((List.range 20).map toByte).length - ((List.range 20).map toByte).length % 16)
          = ((List.range 20).map toByte).take
            (((List.range 20).map toByte).length - ((List.range 20).map toByte).length % 16) →
        AesDecryptCBC toyAES c' (List.replicate 32 7) = .ok out :=
  ⟨by decide,
    AesDecryptCBC_discards_tail toyAES ((List.range 20).map toByte) (List.replicate 32 7)
      (by decide) (Or.inr (Or.inr (by decide)))⟩

/-! ## C15: truncation to the declared size -/

theorem truncateToSize_of_nonneg (d : List Byte) (s : Int) (hs : 0 ≤ s) :
    truncateToSize d s = .ok (d.take (min s.toNat d.length)) := by
  unfold truncateToSize
  by_cases h : (d.length : Int) > s
  · have hneg : ¬ s < 0 := by omega
    rw [if_pos h, if_neg hneg]
    have : min s.toNat d.length = s.toNat := by omega
    rw [this]
  · rw [if_neg h]
    have : min s.toNat d.length = d.length := by omega
    rw [this, List.take_length]

/-- C15. Size-truncation law: for every decrypted (or, for an unencrypted entry, raw)
buffer `d` and every declared size `s ≥ 0`, the plaintext returned by
`DecryptFileFromBackup` and by `GetUnencryptedFileFromBackup` is the prefix of `d` of
length `min(s, len(d))`; a buffer shorter than `s` is returned whole, with no padding
added. -/
theorem size_truncation_law (aes : AES) (fs : BackupFiles) (kb : Keybag)
    (backupRoot fileID : List Byte) (protClass : Int) (wrappedKey : List Byte)
    (d : List Byte) (s : Int) (hs : 0 ≤ s) :
    (2 ≤ fileID.length →
      fs.ReadFile backupRoot (fs.ToLower (fileID.take 2)) fileID = .ok d →
      GetUnencryptedFileFromBackup fs kb backupRoot fileID s
        = .ok (d.take (min s.toNat d.length))) ∧
    (∀ key realKey encData : List Byte,
      (mapGet kb.ClassKeys (protClass % 2 ^ 32).toNat).bind (fun cKey => cKey.KEY) = some key →
      wrappedKey.length = 40 → AesUnwrap aes key wrappedKey = .ok realKey →
      2 ≤ fileID.length →
      fs.ReadFile backupRoot (fs.ToLower (fileID.take 2)) fileID = .ok encData →
      AesDecryptCBC aes encData realKey = .ok d →
      DecryptFileFromBackup aes fs kb backupRoot fileID protClass wrappedKey s
        = .ok (d.take (min s.toNat d.length))) ∧
    (d.take (min s.toNat d.length)).length = min s.toNat d.length ∧
    ((d.length : Int) ≤ s → d.take (min s.toNat d.length) = d) := by
  refine ⟨?_, ?_, ?_, ?_⟩
  · intro h2 hread
    have h2' : ¬ fileID.length < 2 := by omega
    simp only [GetUnencryptedFileFromBackup, if_neg h2', hread, truncateToSize_of_nonneg d s hs]
  · intro key realKey encData hkey hlen hun h2 hread hdec
    have h2' : ¬ fileID.length < 2 := by omega
    have hlen' : ¬ wrappedKey.length ≠ 0x28 := by simp [hlen]
    simp only [DecryptFileFromBackup, hkey, if_neg hlen', hun, if_neg h2', hread, hdec,
      truncateToSize_of_nonneg d s hs]
  · rw [List.length_take]; omega
  · intro hle
    have : min s.toNat d.length = d.length := by omega
    rw [this, List.take_length]

/-- C15 at a concrete input: a 20-byte unencrypted blob with declared size 13, and
the same blob as a ciphertext whose 16 decrypted bytes are cut to 13. -/
theorem size_truncation_law_witness :
    (0 : Int) ≤ 13 ∧
    GetUnencryptedFileFromBackup toyFiles unlockedKeybag [0x2f] [0x41, 0x42, 0x43] 13
      = .ok (((List.range 20).map toByte).take
          (min (13 : Int).toNat ((List.range 20).map toByte).length)) ∧
    DecryptFileFromBackup toyAES toyFiles unlockedKeybag [0x2f] [0x41, 0x42, 0x43] 1
      wrappedFileKey 13 = .ok [15, 14, 13, 12, 11, 10, 9, 8, 7, 6, 5, 4, 3] :=
  ⟨by decide,
    (size_truncation_law toyAES toyFiles unlockedKeybag [0x2f] [0x41, 0x42, 0x43] 1
      wrappedFileKey ((List.range 20).map toByte) 13 (by decide)).1 (by decide) rfl,
    by decide⟩

/-! ## C16 and C17: `ParseFileBlob` -/

theorem field_bind_ok {α β : Type} (x : Except Error α) (f : α → Except Error β) (b : β)
    (h : x >>= f = .ok b) : ∃ a, x = .ok a ∧ f a = .ok b := by
  cases x with
  | error e => exact Except.noConfusion h
  | ok a => exact ⟨a, rfl, h⟩

/-- The `EncryptionKey` of a decoded `MBFile` is what its field decodes to. -/
theorem decodeMBFile_EncryptionKey (ms : Mapstructure) (m : List (String × PlistValue))
    (file : MBFile) (h : decodeMBFile ms m = .ok file) :
    ms.field m "EncryptionKey" 0 ms.asUID = .ok file.EncryptionKey := by
  unfold decodeMBFile at h
  obtain ⟨_, _, h⟩ := field_bind_ok _ _ _ h
  obtain ⟨_, _, h⟩ := field_bind_ok _ _ _ h
  obtain ⟨_, _, h⟩ := field_bind_ok _ _ _ h
  obtain ⟨_, _, h⟩ := field_bind_ok _ _ _ h
  obtain ⟨_, _, h⟩ := field_bind_ok _ _ _ h
  obtain ⟨_, _, h⟩ := field_bind_ok _ _ _ h
  obtain ⟨_, _, h⟩ := field_bind_ok _ _ _ h
  obtain ⟨_, _, h⟩ := field_bind_ok _ _ _ h
  obtain ⟨_, _, h⟩ := field_bind_ok _ _ _ h
  obtain ⟨_, _, h⟩ := field_bind_ok _ _ _ h
  obtain ⟨_, _, h⟩ := field_bind_ok _ _ _ h
  obtain ⟨_, _, h⟩ := field_bind_ok _ _ _ h
  obtain ⟨k, hk, h⟩ := field_bind_ok _ _ _ h
  have : file.EncryptionKey = k := by
    injection h with h
    rw [← h]
  rw [this]
  exact hk

theorem intOfUint64_small (u : Nat) (h : u < 2 ^ 63) : intOfUint64 u = (u : Int) := by
  unfold intOfUint64
  have h1 : u % 2 ^ 64 = u := Nat.mod_eq_of_lt (by omega)
  rw [h1, if_pos h]

/-- `ParseFileBlob` once the root is a dictionary that decodes. -/
theorem ParseFileBlob_of_root (ms : Mapstructure) (archive : MBFileArchive)
    (fileMap : List (String × PlistValue)) (file : MBFile)
    (hlen : archive.Objects.length < 2 ^ 63) (hroot : archive.Root < archive.Objects.length)
    (hdict : archive.Objects.getD archive.Root (.other .other) = .dict fileMap)
    (hfile : decodeMBFile ms fileMap = .ok file) :
    ParseFileBlob ms (.ok archive) =
      match followEncryptionKey ms archive file with
      | .error err => .error err
      | .ok encryptionKey =>
        .ok { protectionClass := file.ProtectionClass, encryptionKey := encryptionKey,
              fileSize := file.Size, birth := file.Birth, lastModified := file.LastModified } := by
  have hint : intOfUint64 archive.Root = (archive.Root : Int) :=
    intOfUint64_small _ (by omega)
  have hc : ¬ ((archive.Root : Int) < 0 ∨
      (archive.Root : Int) ≥ (archive.Objects.length : Int)) := by
    omega
  simp only [ParseFileBlob, hint, if_neg hc, Int.toNat_ofNat, hdict, hfile]

/-- C16. Wrapped-key extraction in `ParseFileBlob`: for every decoded archive with a
dictionary root, if the root's `EncryptionKey` is absent the returned wrapped key is
empty; if it references (uid > 0, in range) a dictionary whose `NS.data` has `L`
bytes, the returned key is `NS.data` with its leading 4 bytes stripped (length
`L - 4`) when `L ≥ 44`, and `NS.data` unchanged (length `L`) when `L < 44`. -/
theorem ParseFileBlob_wrapped_key (ms : Mapstructure) (archive : MBFileArchive)
    (fileMap : List (String × PlistValue)) (file : MBFile)
    (hlen : archive.Objects.length < 2 ^ 63) (hroot : archive.Root < archive.Objects.length)
    (hdict : archive.Objects.getD archive.Root (.other .other) = .dict fileMap)
    (hfile : decodeMBFile ms fileMap = .ok file) :
    (ms.lookup fileMap "EncryptionKey" = none →
      ∃ md, ParseFileBlob ms (.ok archive) = .ok md ∧ md.encryptionKey = []) ∧
    (∀ (keyMap : List (String × PlistValue)) (nsData : List Byte),
      0 < file.EncryptionKey → file.EncryptionKey < archive.Objects.length →
      archive.Objects.getD file.EncryptionKey (.other .other) = .dict keyMap →
      decodeEncryptionKeyObject ms keyMap = .ok nsData →
      ∃ md, ParseFileBlob ms (.ok archive) = .ok md ∧
        (44 ≤ nsData.length →
          md.encryptionKey = nsData.drop 4 ∧ md.encryptionKey.length = nsData.length - 4) ∧
        (nsData.length < 44 → md.encryptionKey = nsData)) := by
  have hparse := ParseFileBlob_of_root ms archive fileMap file hlen hroot hdict hfile
  constructor
  · intro habsent
    have hkey := decodeMBFile_EncryptionKey ms fileMap file hfile
    simp only [Mapstructure.field, habsent] at hkey
    have h0 : file.EncryptionKey = 0 := by injection hkey with h; exact h.symm
    have hfollow : followEncryptionKey ms archive file = .ok [] := by
      have hc : ¬ (intOfUint64 file.EncryptionKey > 0 ∧
          intOfUint64 file.EncryptionKey < (archive.Objects.length : Int)) := by
        rw [h0, intOfUint64_small 0 (by norm_num)]; simp
      simp only [followEncryptionKey, if_neg hc]
    rw [hparse, hfollow]
    exact ⟨_, rfl, rfl⟩
  · intro keyMap nsData hpos hin hkd hns
    have hint : intOfUint64 file.EncryptionKey = (file.EncryptionKey : Int) :=
      intOfUint64_small _ (by omega)
    have hc : (file.EncryptionKey : Int) > 0 ∧
        (file.EncryptionKey : Int) < (archive.Objects.length : Int) := by
      omega
    by_cases hL : nsData.length ≥ 4 + 0x28
    · have hfollow : followEncryptionKey ms archive file = .ok (nsData.drop 4) := by
        simp only [followEncryptionKey, hint, if_pos hc, Int.toNat_ofNat, hkd, hns, if_pos hL]
      rw [hparse, hfollow]
      refine ⟨_, rfl, ?_, ?_⟩
      · intro _; exact ⟨rfl, by simp⟩
      · intro hlt; omega
    · have hfollow : followEncryptionKey ms archive file = .ok nsData := by
        simp only [followEncryptionKey, hint, if_pos hc, Int.toNat_ofNat, hkd, hns, if_neg hL]
      rw [hparse, hfollow]
      refine ⟨_, rfl, ?_, ?_⟩
      · intro hge; omega
      · intro _; rfl

/-- C16 at a concrete archive: root object 1 references key object 2, whose
`NS.data` has 44 bytes; the returned key is its last 40 bytes. -/
theorem ParseFileBlob_wrapped_key_witness :
    ParseFileBlob toyMapstructure (.ok encryptedArchive) =
      .ok { protectionClass := 1, encryptionKey := List.replicate 40 5, fileSize := 13,
            birth := 1600000000, lastModified := 1600000100 } ∧
    ∃ md, ParseFileBlob toyMapstructure (.ok encryptedArchive) = .ok md ∧
      (44 ≤ ([1, 0, 0, 0] ++ List.replicate 40 (5 : Byte)).length →
        md.encryptionKey = ([1, 0, 0, 0] ++ List.replicate 40 (5 : Byte)).drop 4 ∧
        md.encryptionKey.length = ([1, 0, 0, 0] ++ List.replicate 40 (5 : Byte)).length - 4) ∧
      (([1, 0, 0, 0] ++ List.replicate 40 (5 : Byte)).length < 44 →
        md.encryptionKey = [1, 0, 0, 0] ++ List.replicate 40 (5 : Byte)) :=
  ⟨by decide,
    (ParseFileBlob_wrapped_key toyMapstructure encryptedArchive (rootDict 2)
      { Class := 0, Birth := 1600000000, Flags := 0, GroupID := 0, InodeNumber := 0,
        LastModified := 1600000100, LastStatusChange := 0, Mode := 0, ProtectionClass := 1,
        RelativePath := 0, Size := 13, UserID := 0, EncryptionKey := 2 }
      (by decide) (by decide) (by decide) (by decide)).2 keyDict
      ([1, 0, 0, 0] ++ List.replicate 40 5) (by decide) (by decide) (by decide) (by decide)⟩

/-- C17 as stated fails: an `EncryptionKey` uid past the end of the object table, and
one that references a non-dictionary, are not reported; the blob is accepted and the
returned wrapped key is empty. -/
theorem ParseFileBlob_accepts_bad_EncryptionKey :
    ParseFileBlob toyMapstructure (.ok danglingKeyArchive) =
      .ok { protectionClass := 1, encryptionKey := [], fileSize := 13,
            birth := 1600000000, lastModified := 1600000100 } ∧
    ParseFileBlob toyMapstructure (.ok keyNotDictArchive) =
      .ok { protectionClass := 1, encryptionKey := [], fileSize := 13,
            birth := 1600000000, lastModified := 1600000100 } := by
  decide

/-- C17, amended. `ParseFileBlob` returns an error when the plist does not decode,
when the root uid is not a valid index into the object table and when the root object
is not a dictionary.  The `EncryptionKey` uid is followed only when it is positive, in
range and references a dictionary: otherwise (uid 0, uid out of range, a
non-dictionary) the blob is accepted with an empty wrapped key. -/
theorem ParseFileBlob_shape_errors (ms : Mapstructure) (archive : MBFileArchive)
    (hlen : archive.Objects.length < 2 ^ 63) :
    (∀ err, ParseFileBlob ms (.error err) = .error (.plistDecodeFailed err)) ∧
    (archive.Root < 2 ^ 64 → archive.Objects.length ≤ archive.Root →
      ParseFileBlob ms (.ok archive) = .error .rootUIDOutOfRange) ∧
    (∀ v, archive.Root < archive.Objects.length →
      archive.Objects.getD archive.Root (.other .other) = .other v →
      ParseFileBlob ms (.ok archive) = .error .rootNotDictionary) ∧
    (∀ (fileMap : List (String × PlistValue)) (file : MBFile),
      archive.Root < archive.Objects.length →
      archive.Objects.getD archive.Root (.other .other) = .dict fileMap →
      decodeMBFile ms fileMap = .ok file → file.EncryptionKey < 2 ^ 64 →
      (file.EncryptionKey = 0 ∨ archive.Objects.length ≤ file.EncryptionKey ∨
        ∃ v, archive.Objects.getD file.EncryptionKey (.other .other) = .other v) →
      ∃ md, ParseFileBlob ms (.ok archive) = .ok md ∧ md.encryptionKey = []) := by
  refine ⟨fun err => rfl, ?_, ?_, ?_⟩
  · intro h64 hge
    have hc : intOfUint64 archive.Root < 0 ∨
        intOfUint64 archive.Root ≥ (archive.Objects.length : Int) := by
      unfold intOfUint64
      have h1 : archive.Root % 2 ^ 64 = archive.Root := Nat.mod_eq_of_lt h64
      rw [h1]
      split
      · right; omega
      · left; omega
    simp only [ParseFileBlob, if_pos hc]
  · intro v hroot hother
    have hint : intOfUint64 archive.Root = (archive.Root : Int) :=
      intOfUint64_small _ (by omega)
    have hc : ¬ ((archive.Root : Int) < 0 ∨
        (archive.Root : Int) ≥ (archive.Objects.length : Int)) := by
      omega
    simp only [ParseFileBlob, hint, if_neg hc, Int.toNat_ofNat, hother]
  · intro fileMap file hroot hdict hfile h64 hbad
    rw [ParseFileBlob_of_root ms archive fileMap file hlen hroot hdict hfile]
    have hfollow : followEncryptionKey ms archive file = .ok [] := by
      unfold followEncryptionKey
      by_cases hc : intOfUint64 file.EncryptionKey > 0 ∧
          intOfUint64 file.EncryptionKey < (archive.Objects.length : Int)
      · have hsmall : file.EncryptionKey < 2 ^ 63 := by
          by_contra hbig
          have : intOfUint64 file.EncryptionKey < 0 := by
            unfold intOfUint64
            rw [Nat.mod_eq_of_lt h64, if_neg hbig]
            omega
          omega
        have hint := intOfUint64_small _ hsmall
        rw [hint] at hc
        rcases hbad with h0 | hge | ⟨v, hv⟩
        · omega
        · omega
        · simp only [hint, if_pos hc, Int.toNat_ofNat, hv]
      · simp only
        rw [if_neg hc]
    rw [hfollow]
    exact ⟨_, rfl, rfl⟩

/-- C17, amended, at a concrete archive whose root uid is out of range. -/
theorem ParseFileBlob_shape_errors_witness :
    ParseFileBlob toyMapstructure (.ok { Objects := [.other .other], Root := 3 })
      = .error .rootUIDOutOfRange :=
  (ParseFileBlob_shape_errors toyMapstructure { Objects := [.other .other], Root := 3 }
    (by decide)).2.1 (by decide) (by decide)

/-! ## C18: short numeric payloads -/

/-- C18 on the code: whole records `TYPE`, `WRAP`, `CLAS` and `KTYP` whose payload has
fewer than 4 bytes.  `binary.BigEndian.Uint32` is called on the payload without a
length check and the parser aborts with the runtime panic: it returns neither a keybag
nor an error. -/
theorem ParseKeybag_panics_on_short_payload :
    ParseKeybag (encodeTLV [⟨tagTYPE, []⟩]) = .indexOutOfRange ∧
    ParseKeybag (encodeTLV [⟨tagWRAP, [0, 0, 2]⟩]) = .indexOutOfRange ∧
    ParseKeybag (encodeTLV [⟨tagUUID, [9]⟩, ⟨tagUUID, [7]⟩, ⟨tagWRAP, [2]⟩])
      = .indexOutOfRange ∧
    ParseKeybag (encodeTLV [⟨tagUUID, [9]⟩, ⟨tagUUID, [7]⟩, ⟨tagCLAS, [0, 3]⟩])
      = .indexOutOfRange ∧
    ParseKeybag (encodeTLV [⟨tagUUID, [9]⟩, ⟨tagUUID, [7]⟩, ⟨tagKTYP, []⟩])
      = .indexOutOfRange := by
  decide

end Ibex
